import Mathlib

/-!
# Feedback-Arcset: generator / supervisor over a shared ring buffer

A shallow embedding of `arcset.h`, `generator.c` and `supervisor.c`.

* C arrays are lists; an index outside the declared bounds is undefined in C and
  is reported by the model instead of being given a meaning.
* A semaphore is its permit count.  `sem_wait` on a count of `0` does not return:
  the enclosing operation ends in `Outcome.blocked`.
* `exit` ends an operation in `Outcome.exited code`.
* Console output is not part of the modelled state.
-/

namespace Arcset

/-! ## arcset.h -/

def MAX_SOLS : Nat := 10

def MAX_SOL_LEN : Nat := 100

def QUIT : Int := 1

def RUN : Int := 0

def INT_MAX : Nat := 2147483647

/-- Number of values of a C `unsigned int` (32 bit). -/
def UINT_RANGE : Nat := 4294967296

/-- The record `struct SharedMemory`: `data[MAX_SOLS][MAX_SOL_LEN]`,
`solutionLength[MAX_SOLS]`, the two cursors and the `quit` flag. -/
structure SharedMemory where
  data : List (List Int)
  solutionLength : List Nat
  write_pos : Nat
  read_pos : Nat
  quit : Int
deriving DecidableEq, Repr

/-- The shared segment together with the permit counts of the three named
semaphores. -/
structure Channel where
  shared_space : SharedMemory
  mutex_sem : Nat
  freeSpace_sem : Nat
  usedSpace_sem : Nat
deriving DecidableEq, Repr

/-- The shapes declared in `struct SharedMemory`, with both cursors indexing a
slot. -/
def Channel.WF (ch : Channel) : Prop :=
  ch.shared_space.data.length = MAX_SOLS ∧
  (∀ row ∈ ch.shared_space.data, row.length = MAX_SOL_LEN) ∧
  ch.shared_space.solutionLength.length = MAX_SOLS ∧
  ch.shared_space.write_pos < MAX_SOLS ∧
  ch.shared_space.read_pos < MAX_SOLS

/-- How a call ends: it returns, it waits on a semaphore whose count is 0 (the
call cannot complete from this state), or the process exits with a code. -/
inductive Outcome (σ : Type) where
  | returned : σ → Outcome σ
  | blocked : σ → Outcome σ
  | exited : Nat → σ → Outcome σ
deriving DecidableEq, Repr

/-- The loop `for (i = start; i < MAX_SOL_LEN; i += 2) { dst[i] = src[i];
dst[i+1] = src[i+1]; }` shared by `writeSolution` and `readSolution`. -/
def copyLoop (src : List Int) : Nat → Nat → List Int → List Int
  | 0, _, dst => dst
  | fuel + 1, i, dst =>
    if i < MAX_SOL_LEN then
      copyLoop src fuel (i + 2)
        ((dst.set i (src.getD i 0)).set (i + 1) (src.getD (i + 1) 0))
    else dst

/-! ## generator.c : reading the arguments -/

/-- The record `struct Edge` without its `next` pointer; the linked list is a
list (the last element's `next` is taken to be NULL). -/
structure Edge where
  fromNode : Int
  toNode : Int
deriving DecidableEq, Repr

/-- The globals of generator.c used by the search.  `sizeofNodeSet` is the
length of `nodeSet`.  `randCalls` counts the calls of `rand()` made so far and
`arcOverflow` records a write to `arcSet` at an index outside the array. -/
structure Generator where
  edgeList : List Edge
  nodeSet : List Int
  arcSet : List Int
  sizeArcSet : Nat
  randCalls : Nat
  arcOverflow : Bool
deriving DecidableEq, Repr

/-- How the worker stops before its main loop: through `usage()` (exit code 1),
through `bailOut(code, msg)`, or by an access outside an array or string, which
C leaves undefined. -/
inductive Halt where
  | usage : Halt
  | bailOut : Nat → Halt
  | undefined : Halt
deriving DecidableEq, Repr

def LONG_MAX : Int := 9223372036854775807

def LONG_MIN : Int := -9223372036854775808

/-- Conversion of a `long` to `int` (two's complement, 32 bit). -/
def toInt32 (x : Int) : Int :=
  (x + 2147483648) % 4294967296 - 2147483648

/-- The C library predicate `isspace` in the "C" locale. -/
def isspace (c : Char) : Bool :=
  c = ' ' || c = '\t' || c = '\n' || c = '\x0b' || c = '\x0c' || c = '\r'

/-- Drops the leading white space, as `strtol` does first. -/
def skipSpaces : List Char → List Char
  | [] => []
  | c :: cs => if isspace c then skipSpaces cs else c :: cs

/-- Reads the optional sign of a number: whether it is negative, and the text
after the sign. -/
def readSign : List Char → Bool × List Char
  | '-' :: t => (true, t)
  | '+' :: t => (false, t)
  | t => (false, t)

/-- Reads the longest run of decimal digits, accumulating its value. -/
def readDigits : List Char → Nat → Nat × List Char
  | [], acc => (acc, [])
  | c :: cs, acc =>
    if c.isDigit then readDigits cs (10 * acc + (c.toNat - 48)) else (acc, c :: cs)

/-- What a call `strtol(nptr, &endptr, BASE)` yields: the value, the text
`endptr` points at, and whether it set `errno` to `ERANGE`. -/
structure Strtol where
  value : Int
  endptr : List Char
  erange : Bool
deriving DecidableEq, Repr

/-- The C library function `strtol` with base 10 on a 64-bit `long`, after its
ISO C description: optional white space, an optional sign, then digits; without
digits the value is 0 and `endptr` is the whole text; out of range the value is
clamped and `errno` becomes `ERANGE`.  A C string is the list of its characters
before the terminating NUL. -/
def strtol (nptr : List Char) : Strtol :=
  let signed := readSign (skipSpaces nptr)
  match signed.2 with
  | [] => { value := 0, endptr := nptr, erange := false }
  | c :: _ =>
    if c.isDigit then
      let parsed := readDigits signed.2 0
      if signed.1 then
        if -(parsed.1 : Int) < LONG_MIN then
          { value := LONG_MIN, endptr := parsed.2, erange := true }
        else { value := -(parsed.1 : Int), endptr := parsed.2, erange := false }
      else
        if LONG_MAX < (parsed.1 : Int) then
          { value := LONG_MAX, endptr := parsed.2, erange := true }
        else { value := (parsed.1 : Int), endptr := parsed.2, erange := false }
    else { value := 0, endptr := nptr, erange := false }

/-- The function `getNodes`.  `errnoRange` says whether `errno == ERANGE` on
entry; the result is `(fromNode, toNode)`.  When the first number ends the text,
`endptr + 1` points behind the terminating NUL and the second `strcmp` reads
there. -/
def getNodes (errnoRange : Bool) (edge : List Char) : Except Halt (Int × Int) :=
  let first := strtol edge
  let fromNode := toInt32 first.value
  if first.endptr = edge then Except.error Halt.usage
  else
    match first.endptr with
    | [] => Except.error Halt.undefined
    | _ :: afterSep =>
      if afterSep = [] then Except.error Halt.usage
      else
        let second := strtol afterSep
        let toNode := toInt32 second.value
        if fromNode < 0 ∨ toNode < 0 ∨ second.endptr ≠ [] then Except.error Halt.usage
        else if errnoRange || first.erange || second.erange then
          Except.error (Halt.bailOut 1)
        else Except.ok (fromNode, toNode)

/-- The scan `for (i = 0; nodeSet[i] != -1 && i < sizeofNodeSet; i++)` of
`addToSet`, which reads `nodeSet[i]` before it compares `i` with the size.  The
result is the final `i` and `nodeExists`. -/
def addToSetScan (nodeSet : List Int) (node : Int) : Nat → Nat → Char → Except Halt (Nat × Char)
  | 0, _, _ => Except.error Halt.undefined
  | fuel + 1, i, nodeExists =>
    match nodeSet[i]? with
    | none => Except.error Halt.undefined
    | some entry =>
      if entry ≠ -1 ∧ i < nodeSet.length then
        addToSetScan nodeSet node fuel (i + 1) (if node = entry then 'y' else nodeExists)
      else Except.ok (i, nodeExists)

/-- The function `addToSet`; `realloc` keeps the old entries and the new ones
are set to -1. -/
def addToSet (nodeSet : List Int) (node : Int) : Except Halt (List Int) :=
  match addToSetScan nodeSet node (nodeSet.length + 1) 0 'n' with
  | Except.error h => Except.error h
  | Except.ok (i, nodeExists) =>
    let grown :=
      if i + 1 ≥ nodeSet.length then nodeSet ++ List.replicate 20 (-1) else nodeSet
    if nodeExists = 'n' then
      if i < grown.length then Except.ok (grown.set i node) else Except.error Halt.undefined
    else Except.ok grown

/-- The scan `for (i = sizeofNodeSet - 1; nodeSet[i] == -1 && i >= 0; i--)` of
`adjustSetSize`; the argument and the result are `i + 1`.  With `i = -1` it
reads `nodeSet[-1]`. -/
def adjustSetSizeScan (nodeSet : List Int) : Nat → Except Halt Nat
  | 0 => Except.error Halt.undefined
  | i + 1 =>
    if nodeSet.getD i 0 = -1 then adjustSetSizeScan nodeSet i else Except.ok (i + 1)

/-- The function `adjustSetSize`. -/
def adjustSetSize (nodeSet : List Int) : Except Halt (List Int) :=
  match adjustSetSizeScan nodeSet nodeSet.length with
  | Except.error h => Except.error h
  | Except.ok size => if size < nodeSet.length then Except.ok (nodeSet.take size) else Except.ok nodeSet

/-- The argument loop of `getArgs` over `argv[1..]`. -/
def getArgsLoop : List (List Char) → List Edge → List Int → Except Halt (List Edge × List Int)
  | [], edgeList, nodeSet => Except.ok (edgeList, nodeSet)
  | arg :: rest, edgeList, nodeSet =>
    match getNodes false arg with
    | Except.error h => Except.error h
    | Except.ok (fromNode, toNode) =>
      match addToSet nodeSet fromNode with
      | Except.error h => Except.error h
      | Except.ok nodeSet1 =>
        match addToSet nodeSet1 toNode with
        | Except.error h => Except.error h
        | Except.ok nodeSet2 =>
          getArgsLoop rest (edgeList ++ [{ fromNode := fromNode, toNode := toNode }]) nodeSet2

/-- The function `getArgs` on `argv` (with `argv[0]` the program name),
followed by the loop of `main` that sets `arcSet` to -1.  Allocation is taken to
succeed, and `errno` is 0 when the program starts. -/
def getArgs (argv : List (List Char)) : Except Halt Generator :=
  if argv.length ≤ 1 then Except.error Halt.usage
  else
    match getArgsLoop (argv.drop 1) [] (List.replicate 20 (-1)) with
    | Except.error h => Except.error h
    | Except.ok (edgeList, nodeSet) =>
      match adjustSetSize nodeSet with
      | Except.error h => Except.error h
      | Except.ok nodeSet1 =>
        Except.ok
          { edgeList := edgeList,
            nodeSet := nodeSet1,
            arcSet := List.replicate MAX_SOL_LEN (-1),
            sizeArcSet := 0,
            randCalls := 0,
            arcOverflow := false }

/-- The function `areConnected`: walks `edgeList` and answers with 'y' or 'n'. -/
def areConnected : List Edge → Int → Int → Char
  | [], _, _ => 'n'
  | currElem :: next, node1, node2 =>
    if currElem.fromNode = node1 ∧ currElem.toNode = node2 then 'y'
    else areConnected next node1 node2

/-- The loop of `shuffleNodes`, entered with `i` and running while `i > 0`; the
k-th call of `rand()` returns `rand k`. -/
def shuffleLoop (rand : Nat → Nat) : Nat → List Int × Nat → List Int × Nat
  | 0, st => st
  | i + 1, (nodeSet, randCalls) =>
    let randomIndex := rand randCalls % (i + 1)
    let randomNode := nodeSet.getD randomIndex 0
    let currentNode := nodeSet.getD (i + 1) 0
    shuffleLoop rand i
      ((nodeSet.set randomIndex currentNode).set (i + 1) randomNode, randCalls + 1)

/-- The function `shuffleNodes`. -/
def shuffleNodes (rand : Nat → Nat) (nodeSet : List Int) (randCalls : Nat) :
    List Int × Nat :=
  shuffleLoop rand (nodeSet.length - 1) (nodeSet, randCalls)

/-- The locals and globals the scan of `findFeedbackArc` works on. -/
structure Scan where
  arcSet : List Int
  sizeArcSet : Nat
  solCounter : Nat
  arcOverflow : Bool
deriving DecidableEq, Repr

/-- The assignment `arcSet[index] = value`.  With `index` outside the array C
leaves the store undefined: the model then changes nothing but the mark
`arcOverflow`, which no statement resets.  So in a state with
`arcOverflow = true` the fields say what the statements inside the array bounds
have computed, not what the C program's memory holds. -/
def writeArc (st : Scan) (index : Nat) (value : Int) : Scan :=
  if index < MAX_SOL_LEN then { st with arcSet := st.arcSet.set index value }
  else { st with arcOverflow := true }

/-- The inner loop `for (j = i; j >= 0; j--)`; the first argument is `j + 1`. -/
def scanInner (edgeList : List Edge) (nodeSet : List Int) (i : Nat) : Nat → Scan → Scan
  | 0, st => st
  | j + 1, st =>
    let st1 :=
      if areConnected edgeList (nodeSet.getD i 0) (nodeSet.getD j 0) = 'y' then
        let st2 := { st with sizeArcSet := st.sizeArcSet + 1 }
        let st3 := writeArc st2 st2.solCounter (nodeSet.getD i 0)
        let st4 := writeArc st3 (st3.solCounter + 1) (nodeSet.getD j 0)
        { st4 with solCounter := st4.solCounter + 2 }
      else st
    scanInner edgeList nodeSet i j st1

/-- The outer loop `for (i = sizeofNodeSet - 1; i > 0; i--)`. -/
def scanOuter (edgeList : List Edge) (nodeSet : List Int) : Nat → Scan → Scan
  | 0, st => st
  | i + 1, st => scanOuter edgeList nodeSet i (scanInner edgeList nodeSet (i + 1) (i + 2) st)

/-- The loop `while (solCounter < MAX_SOL_LEN) { arcSet[solCounter] = -1;
solCounter++; }`. -/
def fillLoop : Nat → Nat → List Int → List Int
  | 0, _, arcSet => arcSet
  | fuel + 1, solCounter, arcSet =>
    if solCounter < MAX_SOL_LEN then fillLoop fuel (solCounter + 1) (arcSet.set solCounter (-1))
    else arcSet

/-- The function `findFeedbackArc`. -/
def findFeedbackArc (rand : Nat → Nat) (g : Generator) : Generator :=
  let shuffled := shuffleNodes rand g.nodeSet g.randCalls
  let st := scanOuter g.edgeList shuffled.1 (shuffled.1.length - 1)
    { arcSet := g.arcSet, sizeArcSet := 0, solCounter := 0, arcOverflow := g.arcOverflow }
  { g with
    nodeSet := shuffled.1,
    randCalls := shuffled.2,
    arcSet := fillLoop MAX_SOL_LEN st.solCounter st.arcSet,
    sizeArcSet := st.sizeArcSet,
    arcOverflow := st.arcOverflow }

/-- The search part of `iterations` rounds of the worker's main loop
`while (RUN == quit) { findFeedbackArc(); writeSolution(); }`. -/
def generatorIterations (rand : Nat → Nat) : Nat → Generator → Generator
  | 0, g => g
  | iterations + 1, g => generatorIterations rand iterations (findFeedbackArc rand g)

/-- The function `writeSolution` of generator.c on the globals `arcSet` and
`sizeArcSet`.  The call of `printArcSet()` is left out. -/
def writeSolution (ch : Channel) (arcSet : List Int) (sizeArcSet : Nat) :
    Outcome Channel :=
  if ch.shared_space.quit ≠ RUN then
    -- bailOut(0, NULL): the worker detaches and exits, the channel is untouched
    Outcome.exited 0 ch
  else if sizeArcSet > MAX_SOL_LEN / 2 then
    Outcome.returned ch
  else if ch.mutex_sem = 0 then
    Outcome.blocked ch
  else
    let ch1 := { ch with mutex_sem := ch.mutex_sem - 1 }
    if ch1.freeSpace_sem = 0 then
      Outcome.blocked ch1
    else
      let ch2 := { ch1 with freeSpace_sem := ch1.freeSpace_sem - 1 }
      let writePos := ch2.shared_space.write_pos
      let row := copyLoop arcSet MAX_SOL_LEN 0 (ch2.shared_space.data.getD writePos [])
      let shm1 := { ch2.shared_space with
        data := ch2.shared_space.data.set writePos row,
        solutionLength :=
          ch2.shared_space.solutionLength.set writePos (sizeArcSet % UINT_RANGE) }
      let ch3 := { ch2 with
        shared_space := shm1,
        usedSpace_sem := ch2.usedSpace_sem + 1,
        mutex_sem := ch2.mutex_sem + 1 }
      Outcome.returned { ch3 with
        shared_space := { shm1 with write_pos := (writePos + 1) % MAX_SOLS } }

/-! ## supervisor.c -/

/-- The supervisor's globals `currentBest` and `bestSol`. -/
structure Supervisor where
  currentBest : Nat
  bestSol : List Int
deriving DecidableEq, Repr

/-- The slot under the read cursor: what `readSolution` looks at. -/
def slotAtReadPos (ch : Channel) : List Int × Nat :=
  (ch.shared_space.data.getD ch.shared_space.read_pos [],
   ch.shared_space.solutionLength.getD ch.shared_space.read_pos 0)

/-- The function `readSolution` of supervisor.c.  The report printed on an
improvement is left out. -/
def readSolution (ch : Channel) (sup : Supervisor) : Outcome (Channel × Supervisor) :=
  if ch.usedSpace_sem = 0 then
    Outcome.blocked (ch, sup)
  else
    let ch1 := { ch with usedSpace_sem := ch.usedSpace_sem - 1 }
    let readPos := ch1.shared_space.read_pos
    let len := ch1.shared_space.solutionLength.getD readPos 0
    let sup1 : Supervisor :=
      if len < sup.currentBest then
        { currentBest := len,
          bestSol := copyLoop (ch1.shared_space.data.getD readPos []) MAX_SOL_LEN 0 sup.bestSol }
      else sup
    let ch2 := { ch1 with freeSpace_sem := ch1.freeSpace_sem + 1 }
    Outcome.returned
      ({ ch2 with shared_space :=
          { ch2.shared_space with read_pos := (readPos + 1) % MAX_SOLS } }, sup1)

/-- The channel as `main` of supervisor.c leaves it before its read loop. -/
def initChannel : Channel :=
  { shared_space :=
      { data := List.replicate MAX_SOLS (List.replicate MAX_SOL_LEN (-1)),
        solutionLength := List.replicate MAX_SOLS INT_MAX,
        write_pos := 0,
        read_pos := 0,
        quit := 0 },
    mutex_sem := 1,
    freeSpace_sem := MAX_SOLS,
    usedSpace_sem := 0 }

/-- The supervisor's globals when its read loop starts. -/
def initSupervisor : Supervisor :=
  { currentBest := INT_MAX, bestSol := List.replicate MAX_SOL_LEN (-1) }

/-- The test `currentBest < 1` after the read loop `while (currentBest > 0)` of
the supervisor's `main`, on which it prints "The graph is acyclic!". -/
def reportsAcyclic (sup : Supervisor) : Bool :=
  decide (sup.currentBest < 1)

/-! ## Sequences of calls on the channel (one producer, one consumer) -/

/-- One call on the channel: the single worker calls `writeSolution` with its
current `arcSet` and `sizeArcSet`, or the supervisor calls `readSolution`. -/
inductive Call where
  | write : List Int → Nat → Call
  | read : Call
deriving DecidableEq, Repr

/-- What a run of calls leaves behind: the channel, the supervisor's globals and
the slots the supervisor looked at, oldest first. -/
structure Run where
  ch : Channel
  sup : Supervisor
  reads : List (List Int × Nat)
deriving DecidableEq, Repr

/-- Runs the calls one after the other.  A call that would wait on a semaphore,
or a worker that exits, ends the run with `none`. -/
def runCalls : Channel → Supervisor → List Call → Option Run
  | ch, sup, [] => some { ch := ch, sup := sup, reads := [] }
  | ch, sup, Call.write arcSet sizeArcSet :: rest =>
    match writeSolution ch arcSet sizeArcSet with
    | Outcome.returned ch1 => runCalls ch1 sup rest
    | _ => none
  | ch, sup, Call.read :: rest =>
    match readSolution ch sup with
    | Outcome.returned (ch1, sup1) =>
      (runCalls ch1 sup1 rest).map
        (fun r => { r with reads := slotAtReadPos ch :: r.reads })
    | _ => none

/-- The candidates of the `writeSolution` calls that are not discarded, in call
order. -/
def published : List Call → List (List Int × Nat)
  | [] => []
  | Call.write arcSet sizeArcSet :: rest =>
    if sizeArcSet > MAX_SOL_LEN / 2 then published rest
    else (arcSet, sizeArcSet) :: published rest
  | Call.read :: rest => published rest

/-- Number of `readSolution` calls. -/
def countReads : List Call → Nat
  | [] => 0
  | Call.write _ _ :: rest => countReads rest
  | Call.read :: rest => countReads rest + 1

/-- Every candidate handed to `writeSolution` is an `int[MAX_SOL_LEN]`. -/
def CallsWF (calls : List Call) : Prop :=
  ∀ arcSet sizeArcSet, Call.write arcSet sizeArcSet ∈ calls → arcSet.length = MAX_SOL_LEN

/-! ## Reference notions of the specification -/

/-- Reference model, following the specification: a FIFO queue of capacity
`MAX_SOLS`.  Publish appends at the back unless the candidate is oversized (then
it is dropped) and waits when the queue is full; consume takes from the front
and waits when the queue is empty.  The result is the final queue and the
consumed slots, oldest first. -/
def fifoCalls : List (List Int × Nat) → List Call →
    Option (List (List Int × Nat) × List (List Int × Nat))
  | queue, [] => some (queue, [])
  | queue, Call.write arcSet sizeArcSet :: rest =>
    if sizeArcSet > MAX_SOL_LEN / 2 then fifoCalls queue rest
    else if queue.length < MAX_SOLS then fifoCalls (queue ++ [(arcSet, sizeArcSet)]) rest
    else none
  | [], Call.read :: _ => none
  | slot :: queue, Call.read :: rest =>
    (fifoCalls queue rest).map (fun r => (r.1, slot :: r.2))

/-- The best record after looking at the given slots in order: a slot replaces
the record exactly when its length is strictly below `currentBest`. -/
def bestAfter (sup : Supervisor) (slots : List (List Int × Nat)) : Supervisor :=
  slots.foldl
    (fun acc slot =>
      if slot.2 < acc.currentBest then { currentBest := slot.2, bestSol := slot.1 } else acc)
    sup

/-- Smallest edge count among the given slots, starting from `INT_MAX`. -/
def minCount (slots : List (List Int × Nat)) : Nat :=
  (slots.map Prod.snd).foldl min INT_MAX

/-- There is an edge from `u` to `v` in the list. -/
def HasEdge (edges : List Edge) (u v : Int) : Prop :=
  ∃ e ∈ edges, e.fromNode = u ∧ e.toNode = v

/-- The graph has a directed cycle: some node reaches itself along one or more
edges. -/
def HasCycle (edges : List Edge) : Prop :=
  ∃ v, Relation.TransGen (HasEdge edges) v v

/-- The node pairs stored in an arc set, two entries per edge. -/
def arcPairs : List Int → List (Int × Int)
  | a :: b :: rest => (a, b) :: arcPairs rest
  | _ => []

/-- The input graph without the `sizeArcSet` edges recorded in `arcSet`. -/
def remainingEdges (g : Generator) : List Edge :=
  g.edgeList.filter
    (fun e => decide ((e.fromNode, e.toNode) ∉ (arcPairs g.arcSet).take g.sizeArcSet))

/-- The decimal digits of a natural number, as printed. -/
def decimal (n : Nat) : List Char := Nat.toDigits 10 n

/-- The argument text `a-b`. -/
def edgeArg (a b : Nat) : List Char := decimal a ++ '-' :: decimal b

/-- The edge of a pair of node numbers. -/
def pairEdge (p : Nat × Nat) : Edge := { fromNode := (p.1 : Int), toNode := (p.2 : Int) }

/-- The argument text of a pair of node numbers. -/
def pairArg (p : Nat × Nat) : List Char := edgeArg p.1 p.2

/-- The text does not go on with a digit. -/
def StopsNumber (rest : List Char) : Prop :=
  ∀ c tl, rest = c :: tl → c.isDigit = false

/-- Adds a node at the end unless it is already there. -/
def insertNode (filled : List Int) (node : Int) : List Int :=
  if node ∈ filled then filled else filled ++ [node]

/-- The distinct nodes of the edges `(a, b)`, in order of first occurrence,
after those already collected. -/
def collectNodes : List Int → List (Nat × Nat) → List Int
  | filled, [] => filled
  | filled, p :: ps => collectNodes (insertNode (insertNode filled (p.1 : Int)) (p.2 : Int)) ps

/-- Number of index pairs `(i, j)` with `j < bound` whose nodes are joined by an
edge from `nodeSet[i]` to `nodeSet[j]`. -/
def countInner (edgeList : List Edge) (nodeSet : List Int) (i : Nat) : Nat → Nat
  | 0 => 0
  | j + 1 =>
    (if areConnected edgeList (nodeSet.getD i 0) (nodeSet.getD j 0) = 'y' then 1 else 0)
      + countInner edgeList nodeSet i j

/-- Number of index pairs `(i, j)` with `1 ≤ i ≤ top`, `j ≤ i` whose nodes are
joined by an edge from `nodeSet[i]` to `nodeSet[j]`. -/
def countOuter (edgeList : List Edge) (nodeSet : List Int) : Nat → Nat
  | 0 => 0
  | i + 1 => countInner edgeList nodeSet (i + 1) (i + 2) + countOuter edgeList nodeSet i

/-! ## Concrete inputs -/

/-- A candidate of `edges.length / 2` edges: the node pairs followed by `-1` up
to `MAX_SOL_LEN` entries. -/
def padCandidate (edges : List Int) : List Int :=
  edges ++ List.replicate (MAX_SOL_LEN - edges.length) (-1)

/-- Scenario 1 of the specification: candidates of 3, 1 and 2 edges are
published and then consumed. -/
def scenarioCalls : List Call :=
  [Call.write (padCandidate [1, 2, 2, 3, 3, 1]) 3,
   Call.write (padCandidate [3, 1]) 1,
   Call.write (padCandidate [1, 2, 2, 3]) 2,
   Call.read, Call.read, Call.read]

/-- One publish followed by one consume. -/
def publishConsume : List Call := [Call.write (padCandidate [1, 2]) 1, Call.read]

/-- A channel in the middle of a run: three candidates have been published and
consumed, so both cursors stand on slot 3, every slot still holds an older
candidate (the two edges 9->8 and 8->7) and all permits are back. -/
def drainedChannel : Channel :=
  { shared_space :=
      { data := List.replicate MAX_SOLS (padCandidate [9, 8, 8, 7]),
        solutionLength := List.replicate MAX_SOLS 2,
        write_pos := 3,
        read_pos := 3,
        quit := 0 },
    mutex_sem := 1,
    freeSpace_sem := MAX_SOLS,
    usedSpace_sem := 0 }

/-- The supervisor's globals after it has accepted the two-edge candidate
9->8, 8->7. -/
def drainedSupervisor : Supervisor :=
  { currentBest := 2, bestSol := padCandidate [9, 8, 8, 7] }

/-- The initial channel with the mutex permit taken. -/
def heldMutexChannel : Channel := { initChannel with mutex_sem := 0 }

/-- The initial channel after the supervisor's `finishUp` has set the flag. -/
def quitChannel : Channel :=
  { initChannel with shared_space := { initChannel.shared_space with quit := QUIT } }

/-- The command line `generator 1-1`: one edge, a self-loop. -/
def selfLoopArgv : List (List Char) := [['g'], ['1', '-', '1']]

/-- The worker's globals after `getArgs` on `selfLoopArgv`. -/
def selfLoopGenerator : Generator :=
  { edgeList := [⟨1, 1⟩],
    nodeSet := [1],
    arcSet := List.replicate MAX_SOL_LEN (-1),
    sizeArcSet := 0,
    randCalls := 0,
    arcOverflow := false }

/-- The command line `generator 1-3 1-2 2-3`: an acyclic graph on three nodes. -/
def oddArgv : List (List Char) :=
  [['g'], ['1', '-', '3'], ['1', '-', '2'], ['2', '-', '3']]

/-- The edges of `oddArgv`. -/
def oddEdges : List Edge := [⟨1, 3⟩, ⟨1, 2⟩, ⟨2, 3⟩]

/-- The worker's globals after `getArgs` on `oddArgv`. -/
def oddGenerator : Generator :=
  { edgeList := oddEdges,
    nodeSet := [1, 3, 2],
    arcSet := List.replicate MAX_SOL_LEN (-1),
    sizeArcSet := 0,
    randCalls := 0,
    arcOverflow := false }

/-- The command line `generator 1-2 2-3` of scenario 2. -/
def pathArgv : List (List Char) := [['g'], ['1', '-', '2'], ['2', '-', '3']]

/-- The worker's globals after `getArgs` on `pathArgv`. -/
def pathGenerator : Generator :=
  { edgeList := [⟨1, 2⟩, ⟨2, 3⟩],
    nodeSet := [1, 2, 3],
    arcSet := List.replicate MAX_SOL_LEN (-1),
    sizeArcSet := 0,
    randCalls := 0,
    arcOverflow := false }

/-! ## Invariants used in the proofs -/

/-- The slot at index `pos` of the ring. -/
def slotAt (ch : Channel) (pos : Nat) : List Int × Nat :=
  (ch.shared_space.data.getD pos [], ch.shared_space.solutionLength.getD pos 0)

/-- The abstraction relation between the ring buffer and a FIFO queue: the
queue is the run of `usedSpace_sem` slots starting at the read cursor. -/
def Abs (ch : Channel) (queue : List (List Int × Nat)) : Prop :=
  ch.WF ∧ ch.shared_space.quit = RUN ∧ ch.mutex_sem = 1 ∧
  ch.usedSpace_sem = queue.length ∧ ch.freeSpace_sem + queue.length = MAX_SOLS ∧
  ch.shared_space.write_pos = (ch.shared_space.read_pos + queue.length) % MAX_SOLS ∧
  (∀ slot ∈ queue, slot.1.length = MAX_SOL_LEN ∧ slot.2 ≤ MAX_SOL_LEN / 2) ∧
  ∀ i, i < queue.length →
    queue[i]? = some (slotAt ch ((ch.shared_space.read_pos + i) % MAX_SOLS))

/-- Invariant of the permit counts between calls. -/
def PermitInv (ch : Channel) : Prop :=
  ch.shared_space.quit = RUN ∧ ch.mutex_sem = 1 ∧
  ch.freeSpace_sem + ch.usedSpace_sem = MAX_SOLS

/-- The orders of the three nodes of `oddArgv` that the shuffle can produce. -/
def OddOrders (g : Generator) : Prop :=
  g.edgeList = oddEdges ∧
  (g.nodeSet = [1, 3, 2] ∨ g.nodeSet = [3, 2, 1] ∨ g.nodeSet = [2, 1, 3])


/-- Invariant of the cursors and permit counts between calls with one producer:
both cursors index a slot and the write cursor is `usedSpace_sem` slots ahead of
the read cursor. -/
def CursorInv (ch : Channel) : Prop :=
  ch.shared_space.quit = RUN ∧ ch.mutex_sem = 1 ∧
  ch.freeSpace_sem + ch.usedSpace_sem = MAX_SOLS ∧
  ch.shared_space.write_pos < MAX_SOLS ∧ ch.shared_space.read_pos < MAX_SOLS ∧
  ch.shared_space.write_pos
    = (ch.shared_space.read_pos + ch.usedSpace_sem) % MAX_SOLS

/-! ## The shuffle and the scan: traces and reference notions -/

/-- The body of the loop of `shuffleNodes`: the entries at `randomIndex` and `i`
change places. -/
def swapNodes (nodeSet : List Int) (randomIndex i : Nat) : List Int :=
  (nodeSet.set randomIndex (nodeSet.getD i 0)).set i (nodeSet.getD randomIndex 0)

/-- The rounds of the loop of `shuffleNodes` entered with `i`: for each round
the loop variable `i`, which is the modulus of `rand() % i`, and the index
`randomIndex` drawn. -/
def shuffleSteps (rand : Nat → Nat) : Nat → Nat → List (Nat × Nat)
  | 0, _ => []
  | i + 1, randCalls =>
    (i + 1, rand randCalls % (i + 1)) :: shuffleSteps rand i (randCalls + 1)

/-- Reference model, following the claim's words: the Fisher-Yates procedure
that, for `i` from `n - 1` down to 1, swaps position `i` with an index drawn from
`0..i` inclusive. -/
def fisherYatesLoop (rand : Nat → Nat) : Nat → List Int × Nat → List Int × Nat
  | 0, st => st
  | i + 1, (nodeSet, randCalls) =>
    fisherYatesLoop rand i
      (swapNodes nodeSet (rand randCalls % (i + 2)) (i + 1), randCalls + 1)

/-- The reference Fisher-Yates shuffle of a node set. -/
def fisherYates (rand : Nat → Nat) (nodeSet : List Int) (randCalls : Nat) :
    List Int × Nat :=
  fisherYatesLoop rand (nodeSet.length - 1) (nodeSet, randCalls)

/-- The node pairs recorded by the inner loop of `findFeedbackArc` for the index
`i`, entered with `j + 1 = bound`, in the order recorded. -/
def pairsInner (edgeList : List Edge) (nodeSet : List Int) (i : Nat) : Nat → List (Int × Int)
  | 0 => []
  | j + 1 =>
    (if areConnected edgeList (nodeSet.getD i 0) (nodeSet.getD j 0) = 'y' then
        [(nodeSet.getD i 0, nodeSet.getD j 0)]
      else [])
      ++ pairsInner edgeList nodeSet i j

/-- The node pairs recorded by the outer loop of `findFeedbackArc` entered with
`i = top`, in the order recorded. -/
def pairsOuter (edgeList : List Edge) (nodeSet : List Int) : Nat → List (Int × Int)
  | 0 => []
  | i + 1 => pairsInner edgeList nodeSet (i + 1) (i + 2) ++ pairsOuter edgeList nodeSet i

/-- Whether an edge is in the list can be computed. -/
instance HasEdge.decidable (edges : List Edge) (u v : Int) : Decidable (HasEdge edges u v) :=
  inferInstanceAs (Decidable (∃ e ∈ edges, e.fromNode = u ∧ e.toNode = v))

/-- Reference notion, following the claim's words: the pairs
`(nodeSet[i], nodeSet[j])` over the index pairs `1 ≤ i ≤ n - 1`, `0 ≤ j ≤ i` for
which an edge from `nodeSet[i]` to `nodeSet[j]` exists in `edgeList`, ordered by
`i` descending, then `j` descending. -/
def qualifyingPairs (edgeList : List Edge) (nodeSet : List Int) : List (Int × Int) :=
  ((List.range nodeSet.length).reverse.filter (fun i => decide (1 ≤ i))).flatMap
    (fun i =>
      ((List.range (i + 1)).reverse.filter
        (fun j => decide (HasEdge edgeList (nodeSet.getD i 0) (nodeSet.getD j 0)))).map
        (fun j => (nodeSet.getD i 0, nodeSet.getD j 0)))

/-- The entries of an arc set that lists the given pairs, two entries per
pair. -/
def flatPairs (pairs : List (Int × Int)) : List Int :=
  pairs.flatMap (fun p => [p.1, p.2])

/-- The scan state `r` is the scan state `st` after the given pairs have been
recorded inside the array: the counters have advanced and the pairs follow the
entries that were there. -/
def ScanTo (st r : Scan) (pairs : List (Int × Int)) : Prop :=
  r.arcSet.length = MAX_SOL_LEN ∧
  r.solCounter = st.solCounter + 2 * pairs.length ∧
  r.sizeArcSet = st.sizeArcSet + pairs.length ∧
  r.arcOverflow = st.arcOverflow ∧
  r.arcSet.take r.solCounter = st.arcSet.take st.solCounter ++ flatPairs pairs

/-- The body of the inner loop of `findFeedbackArc` when the two nodes are
connected: the pair `(x, y)` is counted and written at `solCounter`. -/
def recordPair (st : Scan) (x y : Int) : Scan :=
  let st2 := { st with sizeArcSet := st.sizeArcSet + 1 }
  let st3 := writeArc st2 st2.solCounter x
  let st4 := writeArc st3 (st3.solCounter + 1) y
  { st4 with solCounter := st4.solCounter + 2 }

/-- If `solCounter` has passed the end of `arcSet`, a write outside the array
has been recorded. -/
def OverflowSeen (st : Scan) : Prop :=
  MAX_SOL_LEN < st.solCounter → st.arcOverflow = true

/-- All ordered pairs of the nodes 0..9, self-loops included. -/
def densePairs : List (Nat × Nat) :=
  (List.range 10).flatMap (fun a => (List.range 10).map (fun b => (a, b)))

/-- The command line `generator 0-0 0-1 ... 9-9` with these 100 edges. -/
def denseArgv : List (List Char) := ['g'] :: densePairs.map pairArg

/-- The worker's globals after `getArgs` on `denseArgv`. -/
def denseGenerator : Generator :=
  { edgeList := densePairs.map pairEdge,
    nodeSet := [0, 1, 2, 3, 4, 5, 6, 7, 8, 9],
    arcSet := List.replicate MAX_SOL_LEN (-1),
    sizeArcSet := 0,
    randCalls := 0,
    arcOverflow := false }

/-- The worker's globals are well formed: `arcSet` has `MAX_SOL_LEN` entries
and the node ids are nonnegative. -/
def GeneratorWF (g : Generator) : Prop :=
  g.arcSet.length = MAX_SOL_LEN ∧ ∀ x ∈ g.nodeSet, (0 : Int) ≤ x

/-- The node ids as they occur in the edges `(a, b)`: `a` before `b`, edge after
edge. -/
def nodeOccurrences (pairs : List (Nat × Nat)) : List Int :=
  pairs.flatMap (fun p => [(p.1 : Int), (p.2 : Int)])

/-- Reference notion, following the claim's words: each id once, in order of
first occurrence. -/
def firstOccurrences : List Int → List Int
  | [] => []
  | x :: xs => x :: (firstOccurrences xs).filter (fun y => decide (y ≠ x))

/-- Eleven edges on 22 distinct nodes: 0-1, 2-3, ..., 20-21. -/
def manyNodesPairs : List (Nat × Nat) :=
  (List.range 11).map (fun i => (2 * i, 2 * i + 1))

/-! ## supervisor.c : startup and cleanup -/

/-- The nine release calls of the supervisor's `cleanup`. -/
inductive ReleaseStep where
  | munmap : ReleaseStep
  | close : ReleaseStep
  | shm_unlink : ReleaseStep
  | sem_close_free : ReleaseStep
  | sem_close_used : ReleaseStep
  | sem_close_mutex : ReleaseStep
  | sem_unlink_mutex : ReleaseStep
  | sem_unlink_free : ReleaseStep
  | sem_unlink_used : ReleaseStep
deriving DecidableEq, Repr

/-- What the supervisor's release calls act on.  The first five fields belong
to the process: whether `shared_space` is a mapping, `shm_fd` an open
descriptor, and the three `sem_t *` open semaphores.  The last four are the OS
namespace: whether `SHM_NAME`, `SEM_MUTEX`, `SEM_FREE_SPACE`, `SEM_USED_SPACE`
are registered.  A release call succeeds exactly when its object is there, and
then the object is gone. -/
structure SupervisorOs where
  mapped : Bool
  fdOpen : Bool
  freeOpen : Bool
  usedOpen : Bool
  mutexOpen : Bool
  shmName : Bool
  mutexName : Bool
  freeName : Bool
  usedName : Bool
deriving DecidableEq, Repr

/-- The condition `-1 == sem_close(freeSpace_sem) || -1 == sem_close(usedSpace_sem)
|| -1 == sem_close(mutex_sem)` of `cleanup`: `||` evaluates its right operand
only when the left one is false, that is when the call on the left succeeded. -/
def closeSemaphores (os : SupervisorOs) : SupervisorOs × List ReleaseStep :=
  if ¬ os.freeOpen then (os, [ReleaseStep.sem_close_free])
  else
    let os1 := { os with freeOpen := false }
    if ¬ os1.usedOpen then (os1, [ReleaseStep.sem_close_free, ReleaseStep.sem_close_used])
    else
      ({ os1 with usedOpen := false, mutexOpen := false },
        [ReleaseStep.sem_close_free, ReleaseStep.sem_close_used, ReleaseStep.sem_close_mutex])

/-- The condition `(-1 == sem_unlink(SEM_MUTEX)) || (-1 == sem_unlink(SEM_FREE_SPACE))
|| (-1 == sem_unlink(SEM_USED_SPACE))` of `cleanup`. -/
def unlinkSemaphores (os : SupervisorOs) : SupervisorOs × List ReleaseStep :=
  if ¬ os.mutexName then (os, [ReleaseStep.sem_unlink_mutex])
  else
    let os1 := { os with mutexName := false }
    if ¬ os1.freeName then (os1, [ReleaseStep.sem_unlink_mutex, ReleaseStep.sem_unlink_free])
    else
      ({ os1 with freeName := false, usedName := false },
        [ReleaseStep.sem_unlink_mutex, ReleaseStep.sem_unlink_free,
          ReleaseStep.sem_unlink_used])

/-- The function `cleanup` of supervisor.c: the state it leaves and the release
calls it makes, in order.  The messages printed on failures are left out. -/
def cleanup (os : SupervisorOs) : SupervisorOs × List ReleaseStep :=
  let os1 := { os with mapped := false }
  let os2 := { os1 with fdOpen := false }
  let os3 := { os2 with shmName := false }
  let closed := closeSemaphores os3
  let unlinked := unlinkSemaphores closed.1
  (unlinked.1,
    [ReleaseStep.munmap, ReleaseStep.close, ReleaseStep.shm_unlink] ++ closed.2 ++ unlinked.2)

/-- Whether the calls of the supervisor's startup that do not depend on the
names succeed: the signal setup, `ftruncate` and `mmap`. -/
structure StartupEnv where
  signalsOk : Bool
  truncateOk : Bool
  mapOk : Bool
deriving DecidableEq, Repr

/-- The function `main` of supervisor.c up to its read loop, started with
`argc` arguments in a namespace `names` (only the four name fields of the
argument matter; the process starts without mapping, descriptor or semaphores).
The result is the state left behind and the exit code when `main` stops through
`bailOut`, or `none` when it reaches the read loop.  `shm_open` and `sem_open`
are called with `O_CREAT | O_EXCL`: they fail when the name is registered and
register it otherwise. -/
def supervisorStartup (argc : Nat) (env : StartupEnv) (names : SupervisorOs) :
    SupervisorOs × Option Nat :=
  let os0 : SupervisorOs :=
    { names with mapped := false, fdOpen := false, freeOpen := false, usedOpen := false,
                 mutexOpen := false }
  if argc > 1 then ((cleanup os0).1, some 1)
  else if ¬ env.signalsOk then ((cleanup os0).1, some 1)
  else if os0.shmName then ((cleanup os0).1, some 1)
  else
    let os1 := { os0 with shmName := true, fdOpen := true }
    if ¬ env.truncateOk then ((cleanup os1).1, some 1)
    else if ¬ env.mapOk then ((cleanup os1).1, some 1)
    else
      let os2 := { os1 with mapped := true }
      let os3 := if os2.freeName then os2 else { os2 with freeName := true, freeOpen := true }
      let os4 := if os3.usedName then os3 else { os3 with usedName := true, usedOpen := true }
      let os5 :=
        if os4.mutexName then os4 else { os4 with mutexName := true, mutexOpen := true }
      if os2.freeName ∨ os3.usedName ∨ os4.mutexName then ((cleanup os5).1, some 1)
      else (os5, none)

/-- Nothing registered, nothing open. -/
def emptyOs : SupervisorOs :=
  { mapped := false, fdOpen := false, freeOpen := false, usedOpen := false,
    mutexOpen := false, shmName := false, mutexName := false, freeName := false,
    usedName := false }

/-- The namespace while another supervisor is running: all four names are
registered. -/
def runningNames : SupervisorOs :=
  { emptyOs with shmName := true, mutexName := true, freeName := true, usedName := true }

/-- A namespace in which only `SEM_FREE_SPACE` is left over. -/
def staleFreeNames : SupervisorOs := { emptyOs with freeName := true }

/-- An environment in which the calls that do not depend on names succeed. -/
def startupOk : StartupEnv := { signalsOk := true, truncateOk := true, mapOk := true }

/-- The supervisor's state when `sem_open(SEM_FREE_SPACE)` has failed on a
leftover name and everything else was acquired. -/
def freeFailedOs : SupervisorOs :=
  { mapped := true, fdOpen := true, freeOpen := false, usedOpen := true, mutexOpen := true,
    shmName := true, mutexName := true, freeName := true, usedName := true }

/-! ## Several workers: the statements of `writeSolution` as atomic steps -/

/-- Where a worker stands inside `writeSolution`: before the statement named,
or after the call has returned or the process has exited. -/
inductive WorkerPc where
  | checkQuit : WorkerPc
  | checkSize : WorkerPc
  | waitMutex : WorkerPc
  | waitFree : WorkerPc
  | readWritePos : WorkerPc
  | copySlot : WorkerPc
  | setLength : WorkerPc
  | postUsed : WorkerPc
  | postMutex : WorkerPc
  | advance : WorkerPc
  | returned : WorkerPc
  | exited : WorkerPc
deriving DecidableEq, Repr

/-- A worker process inside `writeSolution`: its position, its globals `arcSet`
and `sizeArcSet`, and its local `writePos`. -/
structure Worker where
  pc : WorkerPc
  arcSet : List Int
  sizeArcSet : Nat
  writePos : Nat
deriving DecidableEq, Repr

/-- One statement of `writeSolution` executed by a worker on the shared
channel; `none` when the worker cannot move: it waits on a semaphore, or it has
returned or exited.  Each statement, the copy loop included, is taken as one
atomic step. -/
def workerStep (ch : Channel) (w : Worker) : Option (Channel × Worker) :=
  match w.pc with
  | WorkerPc.checkQuit =>
    if ch.shared_space.quit ≠ RUN then some (ch, { w with pc := WorkerPc.exited })
    else some (ch, { w with pc := WorkerPc.checkSize })
  | WorkerPc.checkSize =>
    if w.sizeArcSet > MAX_SOL_LEN / 2 then some (ch, { w with pc := WorkerPc.returned })
    else some (ch, { w with pc := WorkerPc.waitMutex })
  | WorkerPc.waitMutex =>
    if ch.mutex_sem = 0 then none
    else some ({ ch with mutex_sem := ch.mutex_sem - 1 }, { w with pc := WorkerPc.waitFree })
  | WorkerPc.waitFree =>
    if ch.freeSpace_sem = 0 then none
    else
      some ({ ch with freeSpace_sem := ch.freeSpace_sem - 1 },
        { w with pc := WorkerPc.readWritePos })
  | WorkerPc.readWritePos =>
    some (ch, { w with writePos := ch.shared_space.write_pos, pc := WorkerPc.copySlot })
  | WorkerPc.copySlot =>
    some ({ ch with shared_space := { ch.shared_space with
              data := ch.shared_space.data.set w.writePos
                (copyLoop w.arcSet MAX_SOL_LEN 0 (ch.shared_space.data.getD w.writePos [])) } },
      { w with pc := WorkerPc.setLength })
  | WorkerPc.setLength =>
    some ({ ch with shared_space := { ch.shared_space with
              solutionLength :=
                ch.shared_space.solutionLength.set w.writePos (w.sizeArcSet % UINT_RANGE) } },
      { w with pc := WorkerPc.postUsed })
  | WorkerPc.postUsed =>
    some ({ ch with usedSpace_sem := ch.usedSpace_sem + 1 }, { w with pc := WorkerPc.postMutex })
  | WorkerPc.postMutex =>
    some ({ ch with mutex_sem := ch.mutex_sem + 1 }, { w with pc := WorkerPc.advance })
  | WorkerPc.advance =>
    some ({ ch with shared_space := { ch.shared_space with
              write_pos := (w.writePos + 1) % MAX_SOLS } },
      { w with pc := WorkerPc.returned })
  | WorkerPc.returned => none
  | WorkerPc.exited => none

/-- A worker entering `writeSolution` with a candidate. -/
def enterWrite (arcSet : List Int) (sizeArcSet : Nat) : Worker :=
  { pc := WorkerPc.checkQuit, arcSet := arcSet, sizeArcSet := sizeArcSet, writePos := 0 }

/-- Lets one worker run alone for at most `fuel` statements. -/
def runAlone : Nat → Channel → Worker → Channel × Worker
  | 0, ch, w => (ch, w)
  | fuel + 1, ch, w =>
    match workerStep ch w with
    | none => (ch, w)
    | some (ch1, w1) => runAlone fuel ch1 w1

/-- How a call of `writeSolution` by a worker running alone ends. -/
def aloneOutcome (ch : Channel) (arcSet : List Int) (sizeArcSet : Nat) : Outcome Channel :=
  let final := runAlone 10 ch (enterWrite arcSet sizeArcSet)
  match final.2.pc with
  | WorkerPc.returned => Outcome.returned final.1
  | WorkerPc.exited => Outcome.exited 0 final.1
  | _ => Outcome.blocked final.1

/-- One move of the system: worker `i` executes its next statement, or the
supervisor executes `readSolution`. -/
inductive Action where
  | worker : Nat → Action
  | read : Action
deriving DecidableEq, Repr

/-- Several workers and the supervisor on one channel.  `publishes` lists, for
each `sem_post(usedSpace_sem)`, the worker and the slot index it has written;
`reads` lists the slots the supervisor looked at. -/
structure System where
  ch : Channel
  workers : List Worker
  sup : Supervisor
  publishes : List (Nat × Nat)
  reads : List (List Int × Nat)
deriving DecidableEq, Repr

/-- One move of the system; `none` when the chosen process cannot move. -/
def systemStep (s : System) : Action → Option System
  | Action.worker i =>
    match s.workers[i]? with
    | none => none
    | some w =>
      match workerStep s.ch w with
      | none => none
      | some (ch1, w1) =>
        some { s with
          ch := ch1,
          workers := s.workers.set i w1,
          publishes :=
            if w.pc = WorkerPc.postUsed then s.publishes ++ [(i, w.writePos)]
            else s.publishes }
  | Action.read =>
    match readSolution s.ch s.sup with
    | Outcome.returned (ch1, sup1) =>
      some { s with ch := ch1, sup := sup1, reads := s.reads ++ [slotAtReadPos s.ch] }
    | _ => none

/-- Runs a schedule of moves. -/
def runSchedule : System → List Action → Option System
  | s, [] => some s
  | s, a :: rest =>
    match systemStep s a with
    | none => none
    | some s1 => runSchedule s1 rest

/-- Two workers entering `writeSolution` on the initial channel, with candidates
of 1 and 2 edges. -/
def twoWorkers : System :=
  { ch := initChannel,
    workers := [enterWrite (padCandidate [3, 1]) 1, enterWrite (padCandidate [1, 2, 2, 3]) 2],
    sup := initSupervisor,
    publishes := [],
    reads := [] }

/-- Worker 0 runs up to and including `sem_post(mutex_sem)`, then worker 1 does
the same, then each advances the write cursor. -/
def raceSchedule : List Action :=
  List.replicate 9 (Action.worker 0) ++ List.replicate 9 (Action.worker 1)
    ++ [Action.worker 0, Action.worker 1]
/-! ## Lemmas -/

theorem copyLoop_getElem? (src : List Int) (hs : src.length = MAX_SOL_LEN) :
    ∀ (fuel i : Nat) (dst : List Int), dst.length = MAX_SOL_LEN →
      MAX_SOL_LEN ≤ i + 2 * fuel →
      ∀ j, (copyLoop src fuel i dst)[j]? = if i ≤ j then src[j]? else dst[j]? := by
  intro fuel
  induction fuel with
  | zero =>
    intro i dst hd hi j
    simp only [copyLoop]
    split
    · rw [List.getElem?_eq_none (by omega), List.getElem?_eq_none (by omega)]
    · rfl
  | succ n ih =>
    intro i dst hd hi j
    simp only [copyLoop]
    split
    · rename_i hlt
      rw [ih (i + 2) _ (by simp [hd]) (by omega) j]
      simp only [MAX_SOL_LEN] at hs hd hlt
      by_cases h1 : i + 2 ≤ j
      · simp [h1, show i ≤ j by omega]
      · simp only [h1, if_false]
        by_cases h2 : i ≤ j
        · simp only [h2, if_true]
          rcases (show j = i ∨ j = i + 1 by omega) with rfl | rfl
          · rw [List.getElem?_set_ne (by omega), List.getElem?_set_self (by omega)]
            simp [List.getD_eq_getElem?_getD, List.getElem?_eq_getElem, hs, hlt]
          · by_cases h3 : i + 1 < 100
            · rw [List.getElem?_set_self (by simp; omega)]
              simp [List.getD_eq_getElem?_getD, List.getElem?_eq_getElem, hs, h3]
            · rw [List.getElem?_eq_none (by simp; omega), List.getElem?_eq_none (by omega)]
        · simp only [h2, if_false]
          rw [List.getElem?_set_ne (by omega), List.getElem?_set_ne (by omega)]
    · rename_i hge
      have : ¬ i ≤ j ∨ MAX_SOL_LEN ≤ j := by omega
      rcases this with h | h
      · simp [h]
      · rw [List.getElem?_eq_none (by omega)]
        split
        · rw [List.getElem?_eq_none (by omega)]
        · rfl

theorem copyLoop_eq_src (src dst : List Int) (hs : src.length = MAX_SOL_LEN)
    (hd : dst.length = MAX_SOL_LEN) : copyLoop src MAX_SOL_LEN 0 dst = src := by
  apply List.ext_getElem?
  intro j
  rw [copyLoop_getElem? src hs MAX_SOL_LEN 0 dst hd (by simp [MAX_SOL_LEN]) j]
  simp

theorem initChannel_WF : initChannel.WF := by
  refine ⟨by simp [initChannel], ?_, by simp [initChannel], by decide, by decide⟩
  intro row hrow
  simp only [initChannel] at hrow
  rw [List.eq_of_mem_replicate hrow]
  simp

theorem getD_mem_length (ch : Channel) (hwf : ch.WF) (pos : Nat) (h : pos < MAX_SOLS) :
    (ch.shared_space.data.getD pos []).length = MAX_SOL_LEN := by
  obtain ⟨h1, h2, -⟩ := hwf
  apply h2
  rw [List.getD_eq_getElem _ _ (by omega)]
  exact List.getElem_mem _

/-- On an available mutex and free permit a publish returns with the candidate
stored under the old write cursor. -/
theorem writeSolution_returned (ch : Channel) (arcSet : List Int) (k : Nat)
    (hwf : ch.WF) (hq : ch.shared_space.quit = RUN) (hm : 0 < ch.mutex_sem)
    (hf : 0 < ch.freeSpace_sem) (ha : arcSet.length = MAX_SOL_LEN)
    (hk : k ≤ MAX_SOL_LEN / 2) :
    writeSolution ch arcSet k = Outcome.returned
      { shared_space :=
          { data := ch.shared_space.data.set ch.shared_space.write_pos arcSet,
            solutionLength := ch.shared_space.solutionLength.set ch.shared_space.write_pos k,
            write_pos := (ch.shared_space.write_pos + 1) % MAX_SOLS,
            read_pos := ch.shared_space.read_pos,
            quit := ch.shared_space.quit },
        mutex_sem := ch.mutex_sem,
        freeSpace_sem := ch.freeSpace_sem - 1,
        usedSpace_sem := ch.usedSpace_sem + 1 } := by
  have hrow := getD_mem_length ch hwf ch.shared_space.write_pos hwf.2.2.2.1
  have hk2 : k % UINT_RANGE = k := by
    apply Nat.mod_eq_of_lt
    simp only [MAX_SOL_LEN, UINT_RANGE] at *
    omega
  have hm2 : ch.mutex_sem - 1 + 1 = ch.mutex_sem := by omega
  simp only [writeSolution, hq, ne_eq, not_true_eq_false, if_false, gt_iff_lt,
    Nat.not_lt.mpr hk, Nat.pos_iff_ne_zero.mp hm, Nat.pos_iff_ne_zero.mp hf,
    copyLoop_eq_src arcSet _ ha hrow, hk2, hm2]

theorem readSolution_returned (ch : Channel) (sup : Supervisor) (hu : 0 < ch.usedSpace_sem) :
    readSolution ch sup = Outcome.returned
      ({ shared_space := { ch.shared_space with
            read_pos := (ch.shared_space.read_pos + 1) % MAX_SOLS },
         mutex_sem := ch.mutex_sem,
         freeSpace_sem := ch.freeSpace_sem + 1,
         usedSpace_sem := ch.usedSpace_sem - 1 },
       if (slotAtReadPos ch).2 < sup.currentBest then
         { currentBest := (slotAtReadPos ch).2,
           bestSol := copyLoop (slotAtReadPos ch).1 MAX_SOL_LEN 0 sup.bestSol }
       else sup) := by
  simp only [readSolution, Nat.pos_iff_ne_zero.mp hu, if_false, slotAtReadPos]

/-! ## Publish and consume: single calls -/

/-- Claim C1 as stated fails: it puts no condition on the mutex.  On the
initial channel with the mutex permit taken (quit = RUN, used = 0, both cursors 0,
ten free permits) `writeSolution` waits on `mutex_sem` and stores nothing. -/
theorem roundtrip_blocked_without_mutex :
    ¬ ∀ (ch : Channel) (sup : Supervisor) (arcSet : List Int) (k : Nat),
      ch.WF → ch.shared_space.quit = RUN → ch.usedSpace_sem = 0 →
      ch.shared_space.write_pos = ch.shared_space.read_pos → 0 < ch.freeSpace_sem →
      arcSet.length = MAX_SOL_LEN → k ≤ MAX_SOL_LEN / 2 →
      sup.bestSol.length = MAX_SOL_LEN →
      ∃ ch1 ch2 sup2,
        writeSolution ch arcSet k = Outcome.returned ch1 ∧
        slotAtReadPos ch1 = (arcSet, k) ∧
        readSolution ch1 sup = Outcome.returned (ch2, sup2) ∧
        (k < sup.currentBest → sup2.bestSol = arcSet ∧ sup2.currentBest = k) := by
  intro h
  have hwf : heldMutexChannel.WF := initChannel_WF
  obtain ⟨ch1, -, -, hw, -⟩ := h heldMutexChannel initSupervisor
    (List.replicate MAX_SOL_LEN (-1)) 0 hwf rfl rfl rfl (by decide) (by simp) (by decide)
    (by simp [initSupervisor])
  have hb : writeSolution heldMutexChannel (List.replicate MAX_SOL_LEN (-1)) 0
      = Outcome.blocked heldMutexChannel := by
    simp [writeSolution, heldMutexChannel, initChannel, RUN, MAX_SOL_LEN]
  rw [hb] at hw
  exact Outcome.noConfusion hw

/-- Claim C1, amended: on a well-formed channel with quit = RUN, nothing to
consume (used = 0, write_pos = read_pos), a free permit and the mutex permit
available, `writeSolution` of a candidate with `k ≤ MAX_SOL_LEN / 2` edges
followed by `readSolution` presents the supervisor with a slot whose data is
`arcSet` and whose length is `k`; when `k < currentBest`, `bestSol` becomes
`arcSet` and `currentBest` becomes `k`. -/
theorem writeSolution_readSolution_roundtrip (ch : Channel) (sup : Supervisor)
    (arcSet : List Int) (k : Nat)
    (hwf : ch.WF) (hq : ch.shared_space.quit = RUN) (_hu : ch.usedSpace_sem = 0)
    (hpos : ch.shared_space.write_pos = ch.shared_space.read_pos)
    (hf : 0 < ch.freeSpace_sem) (hm : 0 < ch.mutex_sem)
    (ha : arcSet.length = MAX_SOL_LEN) (hk : k ≤ MAX_SOL_LEN / 2)
    (hb : sup.bestSol.length = MAX_SOL_LEN) :
    ∃ ch1 ch2 sup2,
      writeSolution ch arcSet k = Outcome.returned ch1 ∧
      slotAtReadPos ch1 = (arcSet, k) ∧
      readSolution ch1 sup = Outcome.returned (ch2, sup2) ∧
      (k < sup.currentBest → sup2.bestSol = arcSet ∧ sup2.currentBest = k) := by
  obtain ⟨h1, h2, h3, h4, h5⟩ := hwf
  have hslot : slotAtReadPos
      { shared_space :=
          { data := ch.shared_space.data.set ch.shared_space.write_pos arcSet,
            solutionLength := ch.shared_space.solutionLength.set ch.shared_space.write_pos k,
            write_pos := (ch.shared_space.write_pos + 1) % MAX_SOLS,
            read_pos := ch.shared_space.read_pos,
            quit := ch.shared_space.quit },
        mutex_sem := ch.mutex_sem,
        freeSpace_sem := ch.freeSpace_sem - 1,
        usedSpace_sem := ch.usedSpace_sem + 1 } = (arcSet, k) := by
    simp only [slotAtReadPos, ← hpos]
    rw [List.getD_eq_getElem _ _ (by simp; omega), List.getD_eq_getElem _ _ (by simp; omega)]
    simp
  refine ⟨_, _, _, writeSolution_returned ch arcSet k ⟨h1, h2, h3, h4, h5⟩ hq hm hf ha hk,
    hslot, readSolution_returned _ sup (by simp), ?_⟩
  intro hlt
  rw [hslot]
  simp only [hlt, if_true]
  exact ⟨copyLoop_eq_src arcSet _ ha hb, trivial⟩

/-- Witness for `writeSolution_readSolution_roundtrip`: in the middle of a run
(cursors on slot 3, every slot and `bestSol` holding the older candidate
9->8, 8->7, `currentBest` = 2) the one-edge candidate 3->1 is published and
consumed: the slot read holds its 100 entries and the count 1, and it becomes
the best solution. -/
theorem writeSolution_readSolution_roundtrip_witness :
    1 < drainedSupervisor.currentBest ∧
    slotAtReadPos drainedChannel = (padCandidate [9, 8, 8, 7], 2) ∧
    ∃ ch1 ch2 sup2,
      writeSolution drainedChannel (padCandidate [3, 1]) 1 = Outcome.returned ch1 ∧
      slotAtReadPos ch1 = (padCandidate [3, 1], 1) ∧
      readSolution ch1 drainedSupervisor = Outcome.returned (ch2, sup2) ∧
      sup2.bestSol = padCandidate [3, 1] ∧ sup2.currentBest = 1 :=
  have h := writeSolution_readSolution_roundtrip drainedChannel drainedSupervisor
    (padCandidate [3, 1]) 1
    ⟨rfl, fun row hrow => by
        rw [show row = padCandidate [9, 8, 8, 7] from List.eq_of_mem_replicate hrow]; rfl,
      rfl, by decide, by decide⟩
    rfl rfl rfl (by decide) (by decide) rfl (by decide) rfl
  ⟨by decide, by decide, h.elim fun ch1 h1 => h1.elim fun ch2 h2 => h2.elim fun sup2 h3 =>
    ⟨ch1, ch2, sup2, h3.1, h3.2.1, h3.2.2.1, h3.2.2.2 (by decide)⟩⟩

/-- Claim C4: with quit = RUN a candidate of more than `MAX_SOL_LEN / 2` edges
makes `writeSolution` return with the channel (every slot, both cursors, the three
permit counts) unchanged. -/
theorem writeSolution_oversized_unchanged (ch : Channel) (arcSet : List Int)
    (sizeArcSet : Nat) (hq : ch.shared_space.quit = RUN)
    (hbig : sizeArcSet > MAX_SOL_LEN / 2) :
    writeSolution ch arcSet sizeArcSet = Outcome.returned ch := by
  simp [writeSolution, hq, hbig]

/-- Witness for `writeSolution_oversized_unchanged`: 51 edges on the initial
channel. -/
theorem writeSolution_oversized_unchanged_witness :
    writeSolution initChannel (List.replicate MAX_SOL_LEN 7) 51
      = Outcome.returned initChannel :=
  writeSolution_oversized_unchanged initChannel (List.replicate MAX_SOL_LEN 7) 51 rfl
    (by decide)

/-- Claim C5: when the quit flag is not RUN, `writeSolution` ends the worker
with exit code 0 and leaves the channel as it was: no slot written, write_pos and
all permit counts unchanged. -/
theorem writeSolution_after_quit_exits (ch : Channel) (arcSet : List Int)
    (sizeArcSet : Nat) (hq : ch.shared_space.quit ≠ RUN) :
    writeSolution ch arcSet sizeArcSet = Outcome.exited 0 ch := by
  simp [writeSolution, hq]

/-- Witness for `writeSolution_after_quit_exits`: the flag set to QUIT. -/
theorem writeSolution_after_quit_exits_witness :
    writeSolution quitChannel (List.replicate MAX_SOL_LEN (-1)) 0
      = Outcome.exited 0 quitChannel :=
  writeSolution_after_quit_exits quitChannel (List.replicate MAX_SOL_LEN (-1)) 0 (by decide)


/-! ## The ring buffer refines a FIFO queue -/

theorem Abs_init : Abs initChannel [] := by
  refine ⟨initChannel_WF, rfl, rfl, rfl, rfl, rfl, ?_, ?_⟩
  · intro slot hslot
    simp at hslot
  · intro i hi
    simp at hi

theorem Abs_write (ch : Channel) (queue : List (List Int × Nat)) (arcSet : List Int)
    (k : Nat) (habs : Abs ch queue) (ha : arcSet.length = MAX_SOL_LEN)
    (hk : k ≤ MAX_SOL_LEN / 2) (hroom : queue.length < MAX_SOLS) :
    ∃ ch1, writeSolution ch arcSet k = Outcome.returned ch1 ∧
      Abs ch1 (queue ++ [(arcSet, k)]) := by
  obtain ⟨hwf, hq, hm, hu, hf, hw, hqs, hslots⟩ := habs
  refine ⟨_, writeSolution_returned ch arcSet k hwf hq (by omega) (by omega) ha hk, ?_⟩
  obtain ⟨h1, h2, h3, h4, h5⟩ := hwf
  simp only [MAX_SOLS] at h1 h3 h4 h5 hroom hf hw
  refine ⟨⟨by simpa using h1, ?_, by simpa using h3, ?_, h5⟩, hq, hm, ?_, ?_, ?_, ?_, ?_⟩
  · intro row hrow
    rcases List.mem_or_eq_of_mem_set hrow with h | h
    · exact h2 row h
    · rw [h]; exact ha
  · simp only [MAX_SOLS]
    exact Nat.mod_lt _ (by decide)
  · simp [hu]
  · simp only [List.length_append, List.length_singleton, MAX_SOLS]
    omega
  · simp only [List.length_append, List.length_singleton, MAX_SOLS, hw]
    omega
  · intro slot hslot
    rcases List.mem_append.mp hslot with h | h
    · exact hqs slot h
    · simp only [List.mem_singleton] at h
      rw [h]
      exact ⟨ha, hk⟩
  · intro i hi
    simp only [List.length_append, List.length_singleton] at hi
    simp only [slotAt, MAX_SOLS]
    by_cases hlt : i < queue.length
    · rw [List.getElem?_append_left hlt, hslots i hlt]
      have hne : ch.shared_space.write_pos ≠ (ch.shared_space.read_pos + i) % 10 := by
        rw [hw]; omega
      simp only [slotAt, MAX_SOLS, List.getD_eq_getElem?_getD]
      rw [List.getElem?_set_ne hne, List.getElem?_set_ne hne]
    · have hi2 : i = queue.length := by omega
      subst hi2
      rw [List.getElem?_append_right (le_refl _)]
      simp only [Nat.sub_self, List.getElem?_cons_zero, ← hw, List.getD_eq_getElem?_getD]
      rw [List.getElem?_set_self (by omega), List.getElem?_set_self (by omega)]
      rfl

theorem write_blocks_when_full (ch : Channel) (queue : List (List Int × Nat))
    (arcSet : List Int) (k : Nat) (habs : Abs ch queue) (hk : k ≤ MAX_SOL_LEN / 2)
    (hfull : ¬ queue.length < MAX_SOLS) :
    writeSolution ch arcSet k = Outcome.blocked { ch with mutex_sem := 0 } := by
  obtain ⟨-, hq, hm, -, hf, -⟩ := habs
  have hf0 : ch.freeSpace_sem = 0 := by omega
  simp [writeSolution, hq, Nat.not_lt.mpr hk, hm, hf0]

theorem write_discards (ch : Channel) (arcSet : List Int) (k : Nat)
    (hq : ch.shared_space.quit = RUN) (hk : k > MAX_SOL_LEN / 2) :
    writeSolution ch arcSet k = Outcome.returned ch := by
  simp [writeSolution, hq, hk]

theorem Abs_read (ch : Channel) (slot : List Int × Nat) (queue : List (List Int × Nat))
    (sup : Supervisor) (habs : Abs ch (slot :: queue))
    (hb : sup.bestSol.length = MAX_SOL_LEN) :
    slotAtReadPos ch = slot ∧
    ∃ ch1, readSolution ch sup = Outcome.returned (ch1, bestAfter sup [slot]) ∧
      Abs ch1 queue := by
  obtain ⟨hwf, hq, hm, hu, hf, hw, hqs, hslots⟩ := habs
  obtain ⟨h1, h2, h3, h4, h5⟩ := hwf
  have h0 := hslots 0 (by simp)
  simp only [List.getElem?_cons_zero, Nat.add_zero, Option.some.injEq] at h0
  rw [Nat.mod_eq_of_lt h5] at h0
  have hs : slotAtReadPos ch = slot := h0.symm
  refine ⟨hs, { shared_space := { ch.shared_space with
                  read_pos := (ch.shared_space.read_pos + 1) % MAX_SOLS },
                mutex_sem := ch.mutex_sem,
                freeSpace_sem := ch.freeSpace_sem + 1,
                usedSpace_sem := ch.usedSpace_sem - 1 }, ?_, ?_⟩
  · rw [readSolution_returned ch sup (by rw [hu]; simp), hs]
    have hlen := (hqs slot (by simp)).1
    simp only [bestAfter, List.foldl_cons, List.foldl_nil, copyLoop_eq_src slot.1 _ hlen hb]
  · simp only [MAX_SOLS, List.length_cons] at h1 h3 h4 h5 hf hw hu ⊢
    refine ⟨⟨h1, h2, h3, h4, ?_⟩, hq, hm, ?_, ?_, ?_, ?_, ?_⟩
    · simp only [MAX_SOLS]
      exact Nat.mod_lt _ (by decide)
    · simp [hu]
    · simp only [MAX_SOLS]; omega
    · simp only [MAX_SOLS, hw]; omega
    · intro s hsq
      exact hqs s (List.mem_cons_of_mem _ hsq)
    · intro i hi
      have := hslots (i + 1) (by simp; omega)
      simp only [List.getElem?_cons_succ, MAX_SOLS] at this
      rw [this]
      simp only [slotAt, MAX_SOLS]
      have he : ((ch.shared_space.read_pos + 1) % 10 + i) % 10
          = (ch.shared_space.read_pos + (i + 1)) % 10 := by omega
      rw [he]

theorem read_blocks_when_empty (ch : Channel) (sup : Supervisor) (habs : Abs ch []) :
    readSolution ch sup = Outcome.blocked (ch, sup) := by
  obtain ⟨-, -, -, hu, -⟩ := habs
  simp only [List.length_nil] at hu
  simp [readSolution, hu]

theorem bestAfter_cons (sup : Supervisor) (slot : List Int × Nat)
    (slots : List (List Int × Nat)) :
    bestAfter sup (slot :: slots) = bestAfter (bestAfter sup [slot]) slots := by
  simp [bestAfter]

theorem bestAfter_single_length (sup : Supervisor) (slot : List Int × Nat)
    (hb : sup.bestSol.length = MAX_SOL_LEN) (hs : slot.1.length = MAX_SOL_LEN) :
    (bestAfter sup [slot]).bestSol.length = MAX_SOL_LEN := by
  simp only [bestAfter, List.foldl_cons, List.foldl_nil]
  split <;> assumption

/-- Simulation: from related states the code and the queue model wait in the
same runs, and in the others they consume the same slots. -/
theorem runCalls_simulates (calls : List Call) :
    ∀ (ch : Channel) (sup : Supervisor) (queue : List (List Int × Nat)),
      Abs ch queue → CallsWF calls → sup.bestSol.length = MAX_SOL_LEN →
      match fifoCalls queue calls with
      | none => runCalls ch sup calls = none
      | some (queue1, rs) =>
        ∃ ch1, runCalls ch sup calls
            = some { ch := ch1, sup := bestAfter sup rs, reads := rs } ∧
          Abs ch1 queue1 := by
  induction calls with
  | nil =>
    intro ch sup queue habs _ _
    simp only [fifoCalls]
    exact ⟨ch, rfl, habs⟩
  | cons call rest ih =>
    intro ch sup queue habs hwf hb
    have hwfr : CallsWF rest := fun a k hmem => hwf a k (List.mem_cons_of_mem _ hmem)
    cases call with
    | write arcSet k =>
      have ha : arcSet.length = MAX_SOL_LEN := hwf arcSet k (List.mem_cons_self _ _)
      by_cases hk : k > MAX_SOL_LEN / 2
      · have hd := write_discards ch arcSet k habs.2.1 hk
        have := ih ch sup queue habs hwfr hb
        simp only [fifoCalls, hk, if_true, runCalls, hd]
        exact this
      · by_cases hroom : queue.length < MAX_SOLS
        · obtain ⟨ch1, hw, habs1⟩ := Abs_write ch queue arcSet k habs ha (by omega) hroom
          have := ih ch1 sup _ habs1 hwfr hb
          simp only [fifoCalls, hk, if_false, hroom, if_true, runCalls, hw]
          exact this
        · have hw := write_blocks_when_full ch queue arcSet k habs (by omega) hroom
          simp only [fifoCalls, hk, if_false, hroom, runCalls, hw]
    | read =>
      cases queue with
      | nil =>
        have hr := read_blocks_when_empty ch sup habs
        simp only [fifoCalls, runCalls, hr]
      | cons slot queue =>
        obtain ⟨hs, ch1, hr, habs1⟩ := Abs_read ch slot queue sup habs hb
        have hlen := (habs.2.2.2.2.2.2.1 slot (by simp)).1
        have := ih ch1 (bestAfter sup [slot]) queue habs1 hwfr
          (bestAfter_single_length sup slot hb hlen)
        simp only [fifoCalls, runCalls, hr]
        cases hfifo : fifoCalls queue rest with
        | none =>
          rw [hfifo] at this
          simp only at this
          simp [this]
        | some res =>
          obtain ⟨queue1, rs⟩ := res
          rw [hfifo] at this
          obtain ⟨ch2, hrun, habs2⟩ := this
          refine ⟨ch2, ?_, habs2⟩
          simp only [Option.map_some', hrun, hs, bestAfter_cons sup slot rs]

theorem fifoCalls_published (calls : List Call) :
    ∀ (queue queue1 rs : List (List Int × Nat)),
      fifoCalls queue calls = some (queue1, rs) →
      queue ++ published calls = rs ++ queue1 ∧ rs.length = countReads calls := by
  induction calls with
  | nil =>
    intro queue queue1 rs h
    simp only [fifoCalls, Option.some.injEq, Prod.mk.injEq] at h
    obtain ⟨rfl, rfl⟩ := h
    simp [published, countReads]
  | cons call rest ih =>
    intro queue queue1 rs h
    cases call with
    | write arcSet k =>
      by_cases hk : k > MAX_SOL_LEN / 2
      · simp only [fifoCalls, hk, if_true] at h
        simpa [published, countReads, hk] using ih _ _ _ h
      · by_cases hroom : queue.length < MAX_SOLS
        · simp only [fifoCalls, hk, if_false, hroom, if_true] at h
          simpa [published, countReads, hk] using ih _ _ _ h
        · simp [fifoCalls, hk, hroom] at h
    | read =>
      cases queue with
      | nil => simp [fifoCalls] at h
      | cons slot queue =>
        simp only [fifoCalls, Option.map_eq_some', Prod.mk.injEq] at h
        obtain ⟨⟨q2, rs2⟩, hf, rfl, rfl⟩ := h
        obtain ⟨h1, h2⟩ := ih _ _ _ hf
        simp [published, countReads, h1, h2]

theorem fifoCalls_reads (calls : List Call) (queue1 rs : List (List Int × Nat))
    (h : fifoCalls [] calls = some (queue1, rs)) :
    rs = (published calls).take (countReads calls) := by
  obtain ⟨h1, h2⟩ := fifoCalls_published calls [] queue1 rs h
  simp only [List.nil_append] at h1
  rw [h1, ← h2, List.take_left']
  rfl

theorem runCalls_init (calls : List Call) (r : Run) (hwf : CallsWF calls)
    (h : runCalls initChannel initSupervisor calls = some r) :
    ∃ queue1, fifoCalls [] calls = some (queue1, r.reads) ∧
      r.sup = bestAfter initSupervisor r.reads ∧ Abs r.ch queue1 := by
  have hsim := runCalls_simulates calls initChannel initSupervisor [] Abs_init hwf
    (by simp [initSupervisor])
  cases hf : fifoCalls [] calls with
  | none =>
    rw [hf] at hsim
    simp only at hsim
    rw [hsim] at h
    exact Option.noConfusion h
  | some res =>
    obtain ⟨queue1, rs⟩ := res
    rw [hf] at hsim
    obtain ⟨ch1, hrun, habs⟩ := hsim
    rw [hrun] at h
    simp only [Option.some.injEq] at h
    subst h
    exact ⟨queue1, rfl, rfl, habs⟩

/-- Claim C2: from the channel the supervisor initialises, for every sequence
of `writeSolution` / `readSolution` calls of one worker and the supervisor, the
code waits exactly where a FIFO queue of capacity `MAX_SOLS` is full or empty,
and otherwise the slots looked at by the successive `readSolution` calls are the
candidates of the non-discarded `writeSolution` calls, in the order written: the
i-th read sees the data and length of the i-th publish. -/
theorem ring_buffer_refines_fifo (calls : List Call) (hwf : CallsWF calls) :
    (runCalls initChannel initSupervisor calls).map Run.reads
        = (fifoCalls [] calls).map Prod.snd ∧
    ∀ r, runCalls initChannel initSupervisor calls = some r →
      r.reads = (published calls).take (countReads calls) := by
  have hsim := runCalls_simulates calls initChannel initSupervisor [] Abs_init hwf
    (by simp [initSupervisor])
  constructor
  · cases hf : fifoCalls [] calls with
    | none =>
      rw [hf] at hsim
      simp only at hsim
      simp [hsim]
    | some res =>
      obtain ⟨queue1, rs⟩ := res
      rw [hf] at hsim
      obtain ⟨ch1, hrun, -⟩ := hsim
      simp [hrun]
  · intro r hr
    obtain ⟨queue1, hf, -, -⟩ := runCalls_init calls r hwf hr
    exact fifoCalls_reads calls queue1 r.reads hf

/-- Witness for `ring_buffer_refines_fifo`: scenario 1 of the specification. -/
theorem ring_buffer_refines_fifo_witness :
    CallsWF scenarioCalls ∧
    ((runCalls initChannel initSupervisor scenarioCalls).map Run.reads
        = (fifoCalls [] scenarioCalls).map Prod.snd ∧
     ∀ r, runCalls initChannel initSupervisor scenarioCalls = some r →
      r.reads = (published scenarioCalls).take (countReads scenarioCalls)) :=
  have hwf : CallsWF scenarioCalls := by
    intro arcSet k hmem
    simp only [scenarioCalls, List.mem_cons, Call.write.injEq, List.mem_singleton,
      reduceCtorEq, or_false, List.not_mem_nil] at hmem
    rcases hmem with ⟨rfl, -⟩ | ⟨rfl, -⟩ | ⟨rfl, -⟩ <;> rfl
  ⟨hwf, ring_buffer_refines_fifo scenarioCalls hwf⟩

/-! ## Permit counts -/

theorem PermitInv_write (ch ch1 : Channel) (arcSet : List Int) (k : Nat)
    (hinv : PermitInv ch) (h : writeSolution ch arcSet k = Outcome.returned ch1) :
    PermitInv ch1 := by
  obtain ⟨hq, hm, hfu⟩ := hinv
  simp only [writeSolution, hq, ne_eq, not_true_eq_false, if_false, hm] at h
  split at h
  · simp only [Outcome.returned.injEq] at h
    subst h
    exact ⟨hq, hm, hfu⟩
  · simp only [one_ne_zero, if_false] at h
    split at h
    · exact Outcome.noConfusion h
    · rename_i hf
      simp only [Outcome.returned.injEq] at h
      subst h
      refine ⟨rfl, rfl, ?_⟩
      simp only
      omega

theorem PermitInv_read (ch ch1 : Channel) (sup sup1 : Supervisor)
    (hinv : PermitInv ch) (h : readSolution ch sup = Outcome.returned (ch1, sup1)) :
    PermitInv ch1 ∧ sup1.currentBest ≤ sup.currentBest := by
  obtain ⟨hq, hm, hfu⟩ := hinv
  simp only [readSolution] at h
  split at h
  · exact Outcome.noConfusion h
  · rename_i hu
    simp only [Outcome.returned.injEq, Prod.mk.injEq] at h
    obtain ⟨rfl, rfl⟩ := h
    refine ⟨⟨hq, hm, ?_⟩, ?_⟩
    · simp only
      omega
    · split
      · simp only
        omega
      · exact le_refl _

theorem PermitInv_runCalls (calls rest : List Call) :
    ∀ (ch : Channel) (sup : Supervisor) (r : Run), PermitInv ch →
      runCalls ch sup (calls ++ rest) = some r →
      ∃ r1, runCalls ch sup calls = some r1 ∧ PermitInv r1.ch ∧
        r1.sup.currentBest ≤ sup.currentBest ∧ r.sup.currentBest ≤ r1.sup.currentBest := by
  induction calls with
  | nil =>
    intro ch sup r hinv h
    refine ⟨_, rfl, hinv, le_refl _, ?_⟩
    simp only [List.nil_append] at h
    clear hinv
    induction rest generalizing ch sup r with
    | nil =>
      simp only [runCalls, Option.some.injEq] at h
      subst h
      exact le_refl _
    | cons call rest ih =>
      cases call with
      | write arcSet k =>
        simp only [runCalls] at h
        split at h
        · rename_i ch1 hw
          exact ih ch1 sup r h
        · exact Option.noConfusion h
      | read =>
        simp only [runCalls] at h
        split at h
        · rename_i ch1 sup1 hr
          simp only [Option.map_eq_some'] at h
          obtain ⟨r2, hr2, rfl⟩ := h
          have h1 := ih ch1 sup1 r2 hr2
          have h2 : sup1.currentBest ≤ sup.currentBest := by
            simp only [readSolution] at hr
            split at hr
            · exact Outcome.noConfusion hr
            · simp only [Outcome.returned.injEq, Prod.mk.injEq] at hr
              obtain ⟨-, rfl⟩ := hr
              split
              · simp only
                omega
              · exact le_refl _
          exact le_trans h1 h2
        · exact Option.noConfusion h
  | cons call calls ih =>
    intro ch sup r hinv h
    cases call with
    | write arcSet k =>
      simp only [List.cons_append, runCalls] at h ⊢
      split at h
      · rename_i ch1 hw
        exact ih ch1 sup r (PermitInv_write ch ch1 arcSet k hinv hw) h
      · exact Option.noConfusion h
    | read =>
      simp only [List.cons_append, runCalls] at h ⊢
      split at h
      · rename_i ch1 sup1 hr
        simp only [Option.map_eq_some'] at h
        obtain ⟨r2, hr2, rfl⟩ := h
        obtain ⟨hinv1, hle⟩ := PermitInv_read ch ch1 sup sup1 hinv hr
        obtain ⟨r1, hr1, hinv2, hle1, hle2⟩ := ih ch1 sup1 r2 hinv1 hr2
        refine ⟨{ r1 with reads := slotAtReadPos ch :: r1.reads }, ?_, hinv2,
          le_trans hle1 hle, hle2⟩
        simp [hr1]
      · exact Option.noConfusion h

/-- Claim C3: along every run of `writeSolution` / `readSolution` calls from
the initial channel in which no call waits, after each completed call the
used-permit count is at most `MAX_SOLS` (it is a natural number, so never
negative) and free + used = `MAX_SOLS`. -/
theorem permit_bounds (calls rest : List Call) (r : Run)
    (h : runCalls initChannel initSupervisor (calls ++ rest) = some r) :
    ∃ r1, runCalls initChannel initSupervisor calls = some r1 ∧
      r1.ch.usedSpace_sem ≤ MAX_SOLS ∧
      r1.ch.freeSpace_sem + r1.ch.usedSpace_sem = MAX_SOLS := by
  obtain ⟨r1, hr1, ⟨-, -, hfu⟩, -⟩ :=
    PermitInv_runCalls calls rest initChannel initSupervisor r ⟨rfl, rfl, rfl⟩ h
  exact ⟨r1, hr1, by omega, hfu⟩

/-- Witness for `permit_bounds`: publish, consume, and one more publish. -/
theorem permit_bounds_witness :
    ∃ r1, runCalls initChannel initSupervisor publishConsume = some r1 ∧
      r1.ch.usedSpace_sem ≤ MAX_SOLS ∧
      r1.ch.freeSpace_sem + r1.ch.usedSpace_sem = MAX_SOLS :=
  have hsome : (runCalls initChannel initSupervisor
      (publishConsume ++ [Call.write (padCandidate []) 0])).isSome = true := by decide
  permit_bounds publishConsume [Call.write (padCandidate []) 0]
    ((runCalls initChannel initSupervisor
      (publishConsume ++ [Call.write (padCandidate []) 0])).get hsome)
    (Option.some_get hsome).symm

/-! ## Best-solution tracking -/

theorem foldl_min_le (l : List Nat) :
    ∀ c : Nat, l.foldl min c ≤ c ∧ ∀ x ∈ l, l.foldl min c ≤ x := by
  induction l with
  | nil =>
    intro c
    simp
  | cons y l ih =>
    intro c
    obtain ⟨h1, h2⟩ := ih (min c y)
    simp only [List.foldl_cons, List.mem_cons, forall_eq_or_imp]
    refine ⟨le_trans h1 (min_le_left _ _), le_trans h1 (min_le_right _ _), h2⟩

theorem bestAfter_spec (slots : List (List Int × Nat)) :
    ∀ sup : Supervisor,
      (bestAfter sup slots).currentBest = (slots.map Prod.snd).foldl min sup.currentBest ∧
      some (bestAfter sup slots).bestSol =
        if (slots.map Prod.snd).foldl min sup.currentBest < sup.currentBest then
          (slots.find? (fun c =>
            decide (c.2 = (slots.map Prod.snd).foldl min sup.currentBest))).map Prod.fst
        else some sup.bestSol := by
  induction slots with
  | nil =>
    intro sup
    simp [bestAfter]
  | cons slot rest ih =>
    intro sup
    rw [bestAfter_cons]
    simp only [List.map_cons, List.foldl_cons]
    by_cases hlt : slot.2 < sup.currentBest
    · have hs : bestAfter sup [slot] = { currentBest := slot.2, bestSol := slot.1 } := by
        simp [bestAfter, hlt]
      have hmin : min sup.currentBest slot.2 = slot.2 := min_eq_right (le_of_lt hlt)
      obtain ⟨h1, h2⟩ := ih (bestAfter sup [slot])
      rw [hs] at h1 h2
      simp only at h1 h2
      rw [hs]
      simp only [hmin]
      refine ⟨h1, ?_⟩
      have hle := (foldl_min_le (rest.map Prod.snd) slot.2).1
      rw [h2, if_pos (lt_of_le_of_lt hle hlt)]
      by_cases hm : (rest.map Prod.snd).foldl min slot.2 < slot.2
      · rw [if_pos hm, List.find?_cons_of_neg]
        simp only [decide_eq_true_eq]
        omega
      · rw [if_neg hm, List.find?_cons_of_pos]
        · rfl
        · simp only [decide_eq_true_eq]
          omega
    · have hs : bestAfter sup [slot] = sup := by
        simp [bestAfter, hlt]
      have hmin : min sup.currentBest slot.2 = sup.currentBest :=
        min_eq_left (Nat.not_lt.mp hlt)
      obtain ⟨h1, h2⟩ := ih sup
      rw [hs]
      simp only [hmin]
      refine ⟨h1, ?_⟩
      rw [h2]
      by_cases hm : (rest.map Prod.snd).foldl min sup.currentBest < sup.currentBest
      · rw [if_pos hm, if_pos hm, List.find?_cons_of_neg]
        simp only [decide_eq_true_eq]
        omega
      · rw [if_neg hm, if_neg hm]

theorem published_small (calls : List Call) :
    ∀ slot ∈ published calls, slot.2 ≤ MAX_SOL_LEN / 2 := by
  induction calls with
  | nil => simp [published]
  | cons call rest ih =>
    cases call with
    | write arcSet k =>
      by_cases hk : k > MAX_SOL_LEN / 2
      · simpa [published, hk] using ih
      · intro slot hslot
        simp only [published, hk, if_false, List.mem_cons] at hslot
        rcases hslot with rfl | h
        · exact Nat.not_lt.mp hk
        · exact ih slot h
    | read => simpa [published] using ih

/-- Claim C6: when the supervisor, starting from `currentBest = INT_MAX`, has
consumed the published candidates c1..cn (each of at most `MAX_SOL_LEN / 2`
edges) in order, `currentBest` is the minimum of `INT_MAX` and their edge counts,
`bestSol` is the edge sequence of the first candidate attaining that minimum (the
initial `bestSol` if nothing was consumed), and `currentBest` at any earlier
point of the run was at least as large. -/
theorem best_solution_tracking (calls rest : List Call) (r : Run)
    (hwf : CallsWF (calls ++ rest))
    (h : runCalls initChannel initSupervisor (calls ++ rest) = some r) :
    r.sup.currentBest
      = minCount ((published (calls ++ rest)).take (countReads (calls ++ rest))) ∧
    (if (published (calls ++ rest)).take (countReads (calls ++ rest)) = [] then
        r.sup.bestSol = initSupervisor.bestSol
      else
        (((published (calls ++ rest)).take (countReads (calls ++ rest))).find?
          (fun c => decide (c.2 = r.sup.currentBest))).map Prod.fst = some r.sup.bestSol) ∧
    ∃ r1, runCalls initChannel initSupervisor calls = some r1 ∧
      r.sup.currentBest ≤ r1.sup.currentBest := by
  obtain ⟨queue1, hf, hsup, -⟩ := runCalls_init (calls ++ rest) r hwf h
  have hreads := fifoCalls_reads (calls ++ rest) queue1 r.reads hf
  obtain ⟨h1, h2⟩ := bestAfter_spec r.reads initSupervisor
  rw [← hsup] at h1 h2
  rw [← hreads]
  refine ⟨h1, ?_, ?_⟩
  · by_cases hnil : r.reads = []
    · rw [if_pos hnil]
      rw [hnil] at h2
      simpa using h2
    · rw [if_neg hnil]
      obtain ⟨slot, hslot⟩ := List.exists_mem_of_ne_nil _ hnil
      have hsmall : slot.2 ≤ MAX_SOL_LEN / 2 := by
        apply published_small (calls ++ rest)
        rw [hreads] at hslot
        exact List.mem_of_mem_take hslot
      have hle := (foldl_min_le (r.reads.map Prod.snd) initSupervisor.currentBest).2 slot.2
        (List.mem_map_of_mem _ hslot)
      have hlt : (r.reads.map Prod.snd).foldl min initSupervisor.currentBest
          < initSupervisor.currentBest := by
        apply lt_of_le_of_lt (le_trans hle hsmall)
        decide
      rw [if_pos hlt, ← h1] at h2
      exact h2.symm
  · obtain ⟨r1, hr1, -, -, hle⟩ :=
      PermitInv_runCalls calls rest initChannel initSupervisor r ⟨rfl, rfl, rfl⟩ h
    exact ⟨r1, hr1, hle⟩

/-- Witness for `best_solution_tracking`: candidates of 3, 1 and 2 edges end
with best = 1. -/
theorem best_solution_tracking_witness :
    ∃ r, runCalls initChannel initSupervisor scenarioCalls = some r ∧
      r.sup.currentBest = 1 ∧ r.sup.bestSol = padCandidate [3, 1] := by
  have hwf : CallsWF (scenarioCalls ++ []) := by
    intro arcSet k hmem
    simp only [scenarioCalls, List.append_nil, List.mem_cons, Call.write.injEq,
      List.mem_singleton, reduceCtorEq, or_false, List.not_mem_nil] at hmem
    rcases hmem with ⟨rfl, -⟩ | ⟨rfl, -⟩ | ⟨rfl, -⟩ <;> rfl
  have hsome : (runCalls initChannel initSupervisor (scenarioCalls ++ [])).isSome = true := by
    decide
  obtain ⟨h1, h2, -⟩ := best_solution_tracking scenarioCalls []
    ((runCalls initChannel initSupervisor (scenarioCalls ++ [])).get hsome) hwf
    (Option.some_get hsome).symm
  have hmin : minCount ((published (scenarioCalls ++ [])).take
      (countReads (scenarioCalls ++ []))) = 1 := by decide
  rw [hmin] at h1
  refine ⟨_, (Option.some_get hsome).symm, h1, ?_⟩
  rw [h1, if_neg (by decide)] at h2
  have hfind : (((published (scenarioCalls ++ [])).take
      (countReads (scenarioCalls ++ []))).find? (fun c => decide (c.2 = 1))).map Prod.fst
      = some (padCandidate [3, 1]) := by decide
  rw [hfind] at h2
  exact (Option.some.inj h2).symm

/-! ## The search heuristic -/

theorem writeArc_sizeArcSet (st : Scan) (index : Nat) (value : Int) :
    (writeArc st index value).sizeArcSet = st.sizeArcSet := by
  simp only [writeArc]
  split <;> rfl

theorem scanInner_sizeArcSet (edgeList : List Edge) (nodeSet : List Int) (i : Nat) :
    ∀ (bound : Nat) (st : Scan),
      (scanInner edgeList nodeSet i bound st).sizeArcSet
        = st.sizeArcSet + countInner edgeList nodeSet i bound := by
  intro bound
  induction bound with
  | zero =>
    intro st
    simp [scanInner, countInner]
  | succ j ih =>
    intro st
    simp only [scanInner, countInner]
    rw [ih]
    split
    · simp only [writeArc_sizeArcSet]
      omega
    · omega

theorem scanOuter_sizeArcSet (edgeList : List Edge) (nodeSet : List Int) :
    ∀ (top : Nat) (st : Scan),
      (scanOuter edgeList nodeSet top st).sizeArcSet
        = st.sizeArcSet + countOuter edgeList nodeSet top := by
  intro top
  induction top with
  | zero =>
    intro st
    simp [scanOuter, countOuter]
  | succ i ih =>
    intro st
    simp only [scanOuter, countOuter]
    rw [ih, scanInner_sizeArcSet]
    omega

theorem findFeedbackArc_sizeArcSet (rand : Nat → Nat) (g : Generator) :
    (findFeedbackArc rand g).sizeArcSet
      = countOuter g.edgeList (shuffleNodes rand g.nodeSet g.randCalls).1
          ((shuffleNodes rand g.nodeSet g.randCalls).1.length - 1) := by
  simp only [findFeedbackArc, scanOuter_sizeArcSet]
  omega

theorem shuffleNodes_three (rand : Nat → Nat) (a b c : Int) (randCalls : Nat) :
    (shuffleNodes rand [a, b, c] randCalls).1
      = if rand randCalls % 2 = 0 then [b, c, a] else [c, a, b] := by
  rcases Nat.mod_two_eq_zero_or_one (rand randCalls) with h | h
  · simp [shuffleNodes, shuffleLoop, h, Nat.mod_one]
  · simp [shuffleNodes, shuffleLoop, h, Nat.mod_one]

theorem OddOrders_step (rand : Nat → Nat) (g : Generator) (h : OddOrders g) :
    OddOrders (findFeedbackArc rand g) ∧ (findFeedbackArc rand g).sizeArcSet ≠ 0 := by
  obtain ⟨hE, hN⟩ := h
  have hns : (findFeedbackArc rand g).nodeSet = (shuffleNodes rand g.nodeSet g.randCalls).1 :=
    rfl
  have hes : (findFeedbackArc rand g).edgeList = g.edgeList := rfl
  refine ⟨⟨hes.trans hE, ?_⟩, ?_⟩
  · rw [hns]
    rcases hN with h | h | h <;> rw [h, shuffleNodes_three] <;> split <;> simp
  · rw [findFeedbackArc_sizeArcSet, hE]
    rcases hN with h | h | h <;> rw [h, shuffleNodes_three] <;> split <;> decide

theorem OddOrders_iterations (rand : Nat → Nat) :
    ∀ (k : Nat) (g : Generator), OddOrders g →
      (generatorIterations rand (k + 1) g).sizeArcSet ≠ 0 := by
  intro k
  induction k with
  | zero =>
    intro g h
    exact (OddOrders_step rand g h).2
  | succ k ih =>
    intro g h
    exact ih (findFeedbackArc rand g) (OddOrders_step rand g h).1

theorem oddEdges_increasing (u v : Int)
    (h : Relation.TransGen (HasEdge oddEdges) u v) : u < v := by
  induction h with
  | single hedge =>
    obtain ⟨e, he, rfl, rfl⟩ := hedge
    simp only [oddEdges, List.mem_cons, List.mem_singleton, List.not_mem_nil, or_false] at he
    rcases he with rfl | rfl | rfl <;> decide
  | tail _ hedge ih =>
    obtain ⟨e, he, rfl, rfl⟩ := hedge
    simp only [oddEdges, List.mem_cons, List.mem_singleton, List.not_mem_nil, or_false] at he
    rcases he with rfl | rfl | rfl <;> simp only at ih ⊢ <;> omega

theorem findFeedbackArc_selfLoopGenerator (rand : Nat → Nat) :
    findFeedbackArc rand selfLoopGenerator = selfLoopGenerator := by
  have h : findFeedbackArc rand selfLoopGenerator
      = findFeedbackArc (fun _ => 0) selfLoopGenerator := rfl
  rw [h]
  decide

/-- Claim C7 fails on `generator 1-1`: the scan starts at `i = sizeofNodeSet - 1`
and stops at `i > 0`, so the pair `(0, 0)` is never examined.  For every outcome
of `rand()` the candidate has 0 edges and `arcSet` is all -1, the self-loop 1-1
stays in the graph, and the supervisor that consumes this candidate reports an
acyclic graph. -/
theorem findFeedbackArc_self_loop_unrecorded (rand : Nat → Nat) :
    getArgs selfLoopArgv = Except.ok selfLoopGenerator ∧
    (findFeedbackArc rand selfLoopGenerator).sizeArcSet = 0 ∧
    (findFeedbackArc rand selfLoopGenerator).arcSet = List.replicate MAX_SOL_LEN (-1) ∧
    HasCycle (remainingEdges (findFeedbackArc rand selfLoopGenerator)) ∧
    ∃ r, runCalls initChannel initSupervisor
        [Call.write (findFeedbackArc rand selfLoopGenerator).arcSet
          (findFeedbackArc rand selfLoopGenerator).sizeArcSet, Call.read] = some r ∧
      reportsAcyclic r.sup = true := by
  rw [findFeedbackArc_selfLoopGenerator]
  refine ⟨rfl, rfl, rfl, ?_, ?_⟩
  · exact ⟨1, Relation.TransGen.single ⟨⟨1, 1⟩, by decide, rfl, rfl⟩⟩
  · have hbest : (runCalls initChannel initSupervisor
        [Call.write selfLoopGenerator.arcSet selfLoopGenerator.sizeArcSet, Call.read]).map
        (fun r => reportsAcyclic r.sup) = some true := by decide
    exact Option.map_eq_some'.mp hbest

/-- Claim C8 fails on `generator 1-3 1-2 2-3`: the graph has no directed cycle,
`getArgs` builds the node set 1, 3, 2, and because `shuffleNodes` draws its index
with `rand() % i` (never `i` itself) every round applies a 3-cycle to the node
set, so the order 1, 2, 3 is never reached: for every sequence of `rand()`
outcomes and every number of rounds `sizeArcSet` is not 0. -/
theorem acyclic_graph_never_zero (rand : Nat → Nat) (k : Nat) :
    getArgs oddArgv = Except.ok oddGenerator ∧ ¬ HasCycle oddGenerator.edgeList ∧
    (generatorIterations rand (k + 1) oddGenerator).sizeArcSet ≠ 0 := by
  refine ⟨rfl, ?_, ?_⟩
  · rintro ⟨v, hv⟩
    exact lt_irrefl v (oddEdges_increasing v v hv)
  · apply OddOrders_iterations
    exact ⟨rfl, Or.inl rfl⟩

/-- Scenario 2 of the specification: on `generator 1-2 2-3` three rounds in
which `rand()` returns 0 end with a 0-edge candidate. -/
theorem path_graph_reaches_zero :
    getArgs pathArgv = Except.ok pathGenerator ∧
    (generatorIterations (fun _ => 0) 3 pathGenerator).sizeArcSet = 0 :=
  ⟨rfl, by decide⟩

/-! ## Reading the arguments -/

theorem digitChar_facts : ∀ m, m < 10 →
    (Nat.digitChar m).isDigit = true ∧ (Nat.digitChar m).toNat - 48 = m ∧
    isspace (Nat.digitChar m) = false ∧ Nat.digitChar m ≠ '-' ∧ Nat.digitChar m ≠ '+' := by
  decide

theorem toDigitsCore_append (rest : List Char) :
    ∀ (fuel n : Nat) (ds : List Char),
      Nat.toDigitsCore 10 fuel n ds ++ rest = Nat.toDigitsCore 10 fuel n (ds ++ rest) := by
  intro fuel
  induction fuel with
  | zero =>
    intro n ds
    simp [Nat.toDigitsCore]
  | succ f ih =>
    intro n ds
    simp only [Nat.toDigitsCore]
    split
    · simp
    · rw [ih]
      simp

theorem readDigits_digitChar (m : Nat) (hm : m < 10) (ds : List Char) (acc : Nat) :
    readDigits (Nat.digitChar m :: ds) acc = readDigits ds (10 * acc + m) := by
  obtain ⟨h1, h2, -⟩ := digitChar_facts m hm
  simp only [readDigits, h1, if_true, h2]

theorem readDigits_toDigitsCore :
    ∀ (fuel n : Nat) (ds : List Char), n < fuel →
      ∃ k, ∀ acc, readDigits (Nat.toDigitsCore 10 fuel n ds) acc
        = readDigits ds (acc * 10 ^ k + n) := by
  intro fuel
  induction fuel with
  | zero =>
    intro n ds h
    omega
  | succ f ih =>
    intro n ds h
    simp only [Nat.toDigitsCore]
    split
    · rename_i hz
      refine ⟨1, fun acc => ?_⟩
      rw [readDigits_digitChar _ (Nat.mod_lt _ (by decide))]
      congr 1
      omega
    · rename_i hz
      obtain ⟨k, hk⟩ := ih (n / 10) (Nat.digitChar (n % 10) :: ds) (by omega)
      refine ⟨k + 1, fun acc => ?_⟩
      rw [hk, readDigits_digitChar _ (Nat.mod_lt _ (by decide))]
      congr 1
      have : acc * 10 ^ (k + 1) = 10 * (acc * 10 ^ k) := by ring
      omega

theorem toDigitsCore_head :
    ∀ (fuel n : Nat) (ds : List Char),
      ∃ m tl, m < 10 ∧ Nat.toDigitsCore 10 (fuel + 1) n ds = Nat.digitChar m :: tl := by
  intro fuel
  induction fuel with
  | zero =>
    intro n ds
    refine ⟨n % 10, ds, Nat.mod_lt _ (by decide), ?_⟩
    simp [Nat.toDigitsCore]
  | succ f ih =>
    intro n ds
    rw [Nat.toDigitsCore]
    split
    · exact ⟨n % 10, ds, Nat.mod_lt _ (by decide), rfl⟩
    · exact ih _ _

theorem decimal_head (a : Nat) :
    ∃ m tl, m < 10 ∧ decimal a = Nat.digitChar m :: tl :=
  toDigitsCore_head a a []

theorem readDigits_stop (rest : List Char) (h : StopsNumber rest) (acc : Nat) :
    readDigits rest acc = (acc, rest) := by
  cases rest with
  | nil => rfl
  | cons c tl => simp [readDigits, h c tl rfl]

theorem readDigits_decimal (a : Nat) (rest : List Char) (h : StopsNumber rest) :
    readDigits (decimal a ++ rest) 0 = (a, rest) := by
  simp only [decimal, Nat.toDigits, toDigitsCore_append, List.nil_append]
  obtain ⟨k, hk⟩ := readDigits_toDigitsCore (a + 1) a rest (by omega)
  rw [hk, readDigits_stop rest h]
  simp

theorem readSign_other (c : Char) (t : List Char) (h1 : c ≠ '-') (h2 : c ≠ '+') :
    readSign (c :: t) = (false, c :: t) := by
  unfold readSign
  split
  · rename_i heq
    exact absurd (List.cons.inj heq).1 h1
  · rename_i heq
    exact absurd (List.cons.inj heq).1 h2
  · rfl

theorem strtol_decimal (a : Nat) (rest : List Char) (h : StopsNumber rest) :
    strtol (decimal a ++ rest)
      = if LONG_MAX < (a : Int) then { value := LONG_MAX, endptr := rest, erange := true }
        else { value := (a : Int), endptr := rest, erange := false } := by
  have hread := readDigits_decimal a rest h
  obtain ⟨m, tl, hm, hd⟩ := decimal_head a
  obtain ⟨h1, -, h3, h4, h5⟩ := digitChar_facts m hm
  rw [hd] at hread ⊢
  simp only [List.cons_append] at hread ⊢
  simp only [strtol, skipSpaces, h3, Bool.false_eq_true, if_false,
    readSign_other _ _ h4 h5, h1, if_true, hread]

theorem toInt32_of_fits (a : Nat) (h : a ≤ INT_MAX) : toInt32 (a : Int) = (a : Int) := by
  simp only [toInt32, INT_MAX] at *
  omega

theorem decimal_ne_nil (a : Nat) : decimal a ≠ [] := by
  obtain ⟨m, tl, -, hd⟩ := decimal_head a
  rw [hd]
  exact List.cons_ne_nil _ _

theorem stopsNumber_nil : StopsNumber [] := by
  intro c tl h
  exact List.noConfusion h

theorem stopsNumber_cons (c : Char) (tl : List Char) (h : c.isDigit = false) :
    StopsNumber (c :: tl) := by
  intro d tl2 heq
  rw [← (List.cons.inj heq).1]
  exact h

theorem strtol_decimal_fits (a : Nat) (rest : List Char) (h : StopsNumber rest)
    (ha : a ≤ INT_MAX) :
    strtol (decimal a ++ rest) = { value := (a : Int), endptr := rest, erange := false } := by
  rw [strtol_decimal a rest h, if_neg]
  simp only [LONG_MAX, INT_MAX] at *
  omega

theorem getNodes_edgeArg (errnoRange : Bool) (a b : Nat) (ha : a ≤ INT_MAX)
    (hb : b ≤ INT_MAX) :
    getNodes errnoRange (edgeArg a b)
      = if errnoRange then Except.error (Halt.bailOut 1)
        else Except.ok ((a : Int), (b : Int)) := by
  have h1 := strtol_decimal_fits a ('-' :: decimal b) (stopsNumber_cons _ _ (by decide)) ha
  have h2 := strtol_decimal_fits b [] stopsNumber_nil hb
  rw [List.append_nil] at h2
  have hne : ¬ ('-' :: decimal b = decimal a ++ '-' :: decimal b) := by
    intro heq
    have := congrArg List.length heq
    have hpos := List.length_pos.mpr (decimal_ne_nil a)
    simp only [List.length_cons, List.length_append] at this
    omega
  have ha0 : ¬ ((a : Int) < 0) := by omega
  have hb0 : ¬ ((b : Int) < 0) := by omega
  simp only [getNodes, edgeArg, h1, h2, hne, if_false, decimal_ne_nil b,
    toInt32_of_fits a ha, toInt32_of_fits b hb, ha0, hb0, ne_eq, not_true_eq_false,
    or_self, Bool.or_false]

theorem addToSetScan_spec (filled : List Int) (m : Nat) (hm : 1 ≤ m)
    (hpos : ∀ x ∈ filled, (0 : Int) ≤ x) (node : Int) :
    ∀ (fuel i : Nat) (nodeExists : Char), i ≤ filled.length → filled.length - i < fuel →
      addToSetScan (filled ++ List.replicate m (-1)) node fuel i nodeExists
        = Except.ok (filled.length, if node ∈ filled.drop i then 'y' else nodeExists) := by
  intro fuel
  induction fuel with
  | zero =>
    intro i ex _ h
    omega
  | succ f ih =>
    intro i ex hi hf
    by_cases hlt : i < filled.length
    · have hget : (filled ++ List.replicate m (-1))[i]? = some filled[i] := by
        rw [List.getElem?_append_left hlt, List.getElem?_eq_getElem hlt]
      have hne : filled[i] ≠ -1 := by
        have := hpos filled[i] (List.getElem_mem _)
        omega
      have hlen : i < (filled ++ List.replicate m (-1)).length := by
        simp only [List.length_append, List.length_replicate]
        omega
      simp only [addToSetScan, hget, ne_eq, hne, not_false_eq_true, hlen, and_self, if_true]
      rw [ih (i + 1) _ (by omega) (by omega)]
      rw [List.drop_eq_getElem_cons hlt]
      simp only [List.mem_cons]
      by_cases h1 : node = filled[i]
      · simp [h1]
      · simp [h1]
    · have hi2 : i = filled.length := by omega
      subst hi2
      have hget : (filled ++ List.replicate m (-1))[filled.length]? = some (-1) := by
        rw [List.getElem?_append_right (le_refl _)]
        simp only [Nat.sub_self]
        rw [List.getElem?_replicate]
        simp only [ite_eq_left_iff, not_lt, reduceCtorEq, imp_false, not_le]
        omega
      simp [addToSetScan, hget]

theorem addToSet_spec (filled : List Int) (m : Nat) (hm : 1 ≤ m)
    (hpos : ∀ x ∈ filled, (0 : Int) ≤ x) (node : Int) :
    ∃ m1, 1 ≤ m1 ∧
      addToSet (filled ++ List.replicate m (-1)) node
        = Except.ok (insertNode filled node ++ List.replicate m1 (-1)) := by
  have hscan := addToSetScan_spec filled m hm hpos node
    ((filled ++ List.replicate m (-1)).length + 1) 0 'n' (by omega)
    (by simp only [List.length_append, List.length_replicate]; omega)
  simp only [List.drop_zero] at hscan
  have hgrown : ∃ M, 2 ≤ M ∧
      (if filled.length + 1 ≥ (filled ++ List.replicate m (-1)).length then
        filled ++ List.replicate m (-1) ++ List.replicate 20 (-1)
      else filled ++ List.replicate m (-1)) = filled ++ List.replicate M (-1) := by
    by_cases h : filled.length + 1 ≥ (filled ++ List.replicate m (-1)).length
    · refine ⟨m + 20, by omega, ?_⟩
      rw [if_pos h, List.append_assoc, List.append_replicate_replicate]
    · refine ⟨m, ?_, by rw [if_neg h]⟩
      simp only [List.length_append, List.length_replicate] at h
      omega
  obtain ⟨M, hM, hg⟩ := hgrown
  simp only [addToSet, hscan, hg]
  by_cases hmem : node ∈ filled
  · refine ⟨M, by omega, ?_⟩
    simp [hmem, insertNode]
  · refine ⟨M - 1, by omega, ?_⟩
    have hlen : filled.length < (filled ++ List.replicate M (-1)).length := by
      simp only [List.length_append, List.length_replicate]
      omega
    simp only [hmem, if_false, if_true, hlen, insertNode]
    congr 1
    obtain ⟨M1, rfl⟩ : ∃ M1, M = M1 + 1 := ⟨M - 1, by omega⟩
    simp [List.replicate_succ]

theorem insertNode_nonneg (filled : List Int) (node : Int)
    (hpos : ∀ x ∈ filled, (0 : Int) ≤ x) (hn : 0 ≤ node) :
    ∀ x ∈ insertNode filled node, (0 : Int) ≤ x := by
  intro x hx
  simp only [insertNode] at hx
  split at hx
  · exact hpos x hx
  · rcases List.mem_append.mp hx with h | h
    · exact hpos x h
    · simp only [List.mem_singleton] at h
      omega

theorem insertNode_ne_nil (filled : List Int) (node : Int) : insertNode filled node ≠ [] := by
  simp only [insertNode]
  split
  · rename_i h
    exact List.ne_nil_of_mem h
  · simp

theorem adjustSetSizeScan_spec (filled : List Int) (m : Nat) (hne : filled ≠ [])
    (hpos : ∀ x ∈ filled, (0 : Int) ≤ x) :
    ∀ k, k ≤ m →
      adjustSetSizeScan (filled ++ List.replicate m (-1)) (filled.length + k)
        = Except.ok filled.length := by
  intro k
  induction k with
  | zero =>
    intro _
    obtain ⟨p, hp⟩ : ∃ p, filled.length = p + 1 :=
      ⟨filled.length - 1, by have := List.length_pos.mpr hne; omega⟩
    have hlt : p < filled.length := by omega
    have hget : (filled ++ List.replicate m (-1)).getD p 0 = filled[p] := by
      rw [List.getD_eq_getElem?_getD, List.getElem?_append_left hlt,
        List.getElem?_eq_getElem hlt]
      rfl
    have hne1 : filled[p] ≠ -1 := by
      have := hpos filled[p] (List.getElem_mem _)
      omega
    simp only [Nat.add_zero, hp, adjustSetSizeScan, hget, hne1, if_false]
  | succ k ih =>
    intro hk
    have hget : (filled ++ List.replicate m (-1)).getD (filled.length + k) 0 = -1 := by
      rw [List.getD_eq_getElem?_getD, List.getElem?_append_right (by omega)]
      simp only [Nat.add_sub_cancel_left]
      rw [List.getElem?_replicate, if_pos (by omega)]
      rfl
    rw [← Nat.add_assoc]
    simp only [adjustSetSizeScan, hget, if_true]
    exact ih (by omega)

theorem adjustSetSize_spec (filled : List Int) (m : Nat) (hne : filled ≠ [])
    (hpos : ∀ x ∈ filled, (0 : Int) ≤ x) :
    adjustSetSize (filled ++ List.replicate m (-1)) = Except.ok filled := by
  have h := adjustSetSizeScan_spec filled m hne hpos m (le_refl _)
  have hlen : (filled ++ List.replicate m (-1)).length = filled.length + m := by simp
  simp only [adjustSetSize, hlen, h]
  split
  · simp
  · rename_i hm
    have : m = 0 := by omega
    subst this
    simp

theorem collectNodes_props (pairs : List (Nat × Nat)) :
    ∀ filled : List Int, (∀ x ∈ filled, (0 : Int) ≤ x) →
      (∀ x ∈ collectNodes filled pairs, (0 : Int) ≤ x) ∧
      (filled ≠ [] ∨ pairs ≠ [] → collectNodes filled pairs ≠ []) := by
  induction pairs with
  | nil =>
    intro filled hpos
    simp only [collectNodes]
    exact ⟨hpos, fun h => h.elim id (fun h2 => absurd rfl h2)⟩
  | cons p ps ih =>
    intro filled hpos
    simp only [collectNodes]
    have h1 := insertNode_nonneg filled (p.1 : Int) hpos (by omega)
    have h2 := insertNode_nonneg _ (p.2 : Int) h1 (by omega)
    obtain ⟨h3, h4⟩ := ih _ h2
    exact ⟨h3, fun _ => h4 (Or.inl (insertNode_ne_nil _ _))⟩

theorem getArgsLoop_spec (pairs : List (Nat × Nat))
    (hfit : ∀ p ∈ pairs, p.1 ≤ INT_MAX ∧ p.2 ≤ INT_MAX) :
    ∀ (edgeList : List Edge) (filled : List Int) (m : Nat), 1 ≤ m →
      (∀ x ∈ filled, (0 : Int) ≤ x) →
      ∃ m1, 1 ≤ m1 ∧
        getArgsLoop (pairs.map pairArg) edgeList (filled ++ List.replicate m (-1))
          = Except.ok (edgeList ++ pairs.map pairEdge,
              collectNodes filled pairs ++ List.replicate m1 (-1)) := by
  induction pairs with
  | nil =>
    intro edgeList filled m hm _
    exact ⟨m, hm, by simp [getArgsLoop, collectNodes]⟩
  | cons p ps ih =>
    intro edgeList filled m hm hpos
    obtain ⟨hp1, hp2⟩ := hfit p (List.mem_cons_self _ _)
    have hnodes := getNodes_edgeArg false p.1 p.2 hp1 hp2
    obtain ⟨m1, hm1, hadd1⟩ := addToSet_spec filled m hm hpos (p.1 : Int)
    have hpos1 := insertNode_nonneg filled (p.1 : Int) hpos (by omega)
    obtain ⟨m2, hm2, hadd2⟩ := addToSet_spec _ m1 hm1 hpos1 (p.2 : Int)
    have hpos2 := insertNode_nonneg _ (p.2 : Int) hpos1 (by omega)
    obtain ⟨m3, hm3, hrest⟩ := ih (fun q hq => hfit q (List.mem_cons_of_mem _ hq))
      (edgeList ++ [pairEdge p]) _ m2 hm2 hpos2
    refine ⟨m3, hm3, ?_⟩
    simp only [List.map_cons, getArgsLoop, pairArg, hnodes, Bool.false_eq_true, if_false,
      hadd1, hadd2]
    simp only [pairArg, pairEdge] at hrest
    rw [hrest]
    simp [collectNodes, pairEdge]

/-- Claim C9: for nonnegative integers `a`, `b` that fit in an `int`, `getNodes`
on the text `a-b` returns with `fromNode = a` and `toNode = b` (with `errno ==
ERANGE` on entry it ends in `bailOut`, still not in `usage()`), and `getArgs` on
a command line of such arguments returns with `edgeList` holding the edges in
argument order. -/
theorem getArgs_records_edges (progName : List Char) (pairs : List (Nat × Nat))
    (hne : pairs ≠ []) (hfit : ∀ p ∈ pairs, p.1 ≤ INT_MAX ∧ p.2 ≤ INT_MAX) :
    (∀ p ∈ pairs, ∀ errnoRange,
      getNodes errnoRange (edgeArg p.1 p.2)
        = if errnoRange then Except.error (Halt.bailOut 1)
          else Except.ok ((p.1 : Int), (p.2 : Int))) ∧
    ∃ g, getArgs (progName :: pairs.map pairArg) = Except.ok g ∧
      g.edgeList = pairs.map pairEdge ∧ g.nodeSet = collectNodes [] pairs := by
  constructor
  · intro p hp errnoRange
    exact getNodes_edgeArg errnoRange p.1 p.2 (hfit p hp).1 (hfit p hp).2
  · obtain ⟨m1, hm1, hloop⟩ := getArgsLoop_spec pairs hfit [] [] 20 (by omega)
      (fun x hx => absurd hx (List.not_mem_nil x))
    obtain ⟨hpos, hnn⟩ := collectNodes_props pairs [] (fun x hx => absurd hx (List.not_mem_nil x))
    have hadj := adjustSetSize_spec (collectNodes [] pairs) m1 (hnn (Or.inr hne)) hpos
    have hlen : ¬ ((progName :: pairs.map pairArg).length ≤ 1) := by
      have := List.length_pos.mpr hne
      simp only [List.length_cons, List.length_map]
      omega
    simp only [List.nil_append] at hloop
    simp only [getArgs, hlen, if_false, List.drop_succ_cons, List.drop_zero, hloop, hadj]
    exact ⟨_, rfl, rfl, rfl⟩

/-- Witness for `getArgs_records_edges`: the command line `generator 1-2 2-3`. -/
theorem getArgs_records_edges_witness :
    (∀ p ∈ [((1 : Nat), (2 : Nat)), (2, 3)], ∀ errnoRange,
      getNodes errnoRange (edgeArg p.1 p.2)
        = if errnoRange then Except.error (Halt.bailOut 1)
          else Except.ok ((p.1 : Int), (p.2 : Int))) ∧
    ∃ g, getArgs (['g'] :: [((1 : Nat), (2 : Nat)), (2, 3)].map pairArg) = Except.ok g ∧
      g.edgeList = [((1 : Nat), (2 : Nat)), (2, 3)].map pairEdge ∧
      g.nodeSet = collectNodes [] [((1 : Nat), (2 : Nat)), (2, 3)] :=
  getArgs_records_edges ['g'] [(1, 2), (2, 3)] (by decide) (by decide)

theorem edgeArg_example : edgeArg 12 305 = ['1', '2', '-', '3', '0', '5'] := by decide

/-- A negative node outside the range of `int` is not turned away by the test
`*fromNode < 0`: `-4294967295-2` is converted to the node 1 and accepted as the
edge 1 -> 2, `-99999999999999999999-1` is clamped by `strtol` to `LONG_MIN`,
converted to the node 0, and leaves through `bailOut(1, ...)` on `ERANGE`, and
`-2147483649-2`, one below the range, is accepted as the edge 2147483647 -> 2. -/
theorem getNodes_negative_outside_int :
    getNodes false ['-', '4', '2', '9', '4', '9', '6', '7', '2', '9', '5', '-', '2']
      = Except.ok (1, 2) ∧
    getNodes false ['-', '9', '9', '9', '9', '9', '9', '9', '9', '9', '9', '9', '9', '9', '9',
        '9', '9', '9', '9', '9', '9', '-', '1']
      = Except.error (Halt.bailOut 1) ∧
    getNodes false ['-', '2', '1', '4', '7', '4', '8', '3', '6', '4', '9', '-', '2']
      = Except.ok (2147483647, 2) :=
  ⟨rfl, rfl, rfl⟩

/-- One argument of each kind of `Malformed` with a sign or a second number in
it, at the edge of the range where there is one: `1-`, `-1-2`,
`-2147483648-2`, `1--2`, `1--2147483648` and `1-2x` all end in `usage()`. -/
theorem getNodes_malformed_examples :
    getNodes false ['1', '-'] = Except.error Halt.usage ∧
    getNodes false ['-', '1', '-', '2'] = Except.error Halt.usage ∧
    getNodes false ['-', '2', '1', '4', '7', '4', '8', '3', '6', '4', '8', '-', '2']
      = Except.error Halt.usage ∧
    getNodes false ['1', '-', '-', '2'] = Except.error Halt.usage ∧
    getNodes false ['1', '-', '-', '2', '1', '4', '7', '4', '8', '3', '6', '4', '8']
      = Except.error Halt.usage ∧
    getNodes false ['1', '-', '2', 'x'] = Except.error Halt.usage :=
  ⟨rfl, rfl, rfl, rfl, rfl, rfl⟩

theorem writeSolution_cursors (ch ch1 : Channel) (arcSet : List Int) (k : Nat)
    (h : writeSolution ch arcSet k = Outcome.returned ch1) :
    ch1.shared_space.read_pos = ch.shared_space.read_pos ∧
    (k ≤ MAX_SOL_LEN / 2 →
      ch1.shared_space.write_pos = (ch.shared_space.write_pos + 1) % MAX_SOLS ∧
      ch1.usedSpace_sem = ch.usedSpace_sem + 1 ∧
      ch1.freeSpace_sem + 1 = ch.freeSpace_sem ∧ ch1.mutex_sem = ch.mutex_sem) ∧
    (k > MAX_SOL_LEN / 2 → ch1 = ch) ∧
    ch1.shared_space.quit = ch.shared_space.quit := by
  simp only [writeSolution] at h
  split at h
  · exact Outcome.noConfusion h
  · split at h
    · rename_i hk
      simp only [Outcome.returned.injEq] at h
      subst h
      exact ⟨rfl, fun hle => absurd hk (by omega), fun _ => rfl, rfl⟩
    · rename_i hk
      split at h
      · exact Outcome.noConfusion h
      · rename_i hm
        split at h
        · exact Outcome.noConfusion h
        · rename_i hf
          simp only [Outcome.returned.injEq] at h
          subst h
          refine ⟨rfl, fun _ => ⟨rfl, rfl, ?_, ?_⟩, fun hgt => absurd hgt hk, rfl⟩
          · simp only
            omega
          · simp only
            omega

theorem readSolution_cursors (ch ch1 : Channel) (sup sup1 : Supervisor)
    (h : readSolution ch sup = Outcome.returned (ch1, sup1)) :
    ch1.shared_space.read_pos = (ch.shared_space.read_pos + 1) % MAX_SOLS ∧
    ch1.shared_space.write_pos = ch.shared_space.write_pos ∧
    ch1.usedSpace_sem + 1 = ch.usedSpace_sem ∧
    ch1.freeSpace_sem = ch.freeSpace_sem + 1 ∧ ch1.mutex_sem = ch.mutex_sem ∧
    ch1.shared_space.quit = ch.shared_space.quit := by
  simp only [readSolution] at h
  split at h
  · exact Outcome.noConfusion h
  · rename_i hu
    simp only [Outcome.returned.injEq, Prod.mk.injEq] at h
    obtain ⟨rfl, -⟩ := h
    refine ⟨rfl, rfl, ?_, rfl, rfl, rfl⟩
    simp only
    omega

theorem CursorInv_write (ch ch1 : Channel) (arcSet : List Int) (k : Nat)
    (hinv : CursorInv ch) (h : writeSolution ch arcSet k = Outcome.returned ch1) :
    CursorInv ch1 := by
  obtain ⟨hq, hm, hfu, hw, hr, hwr⟩ := hinv
  obtain ⟨h1, h2, h3, h4⟩ := writeSolution_cursors ch ch1 arcSet k h
  by_cases hk : k ≤ MAX_SOL_LEN / 2
  · obtain ⟨h5, h6, h7, h8⟩ := h2 hk
    unfold CursorInv
    simp only [MAX_SOLS] at *
    refine ⟨h4.trans hq, h8.trans hm, by omega, by omega, by omega, ?_⟩
    rw [h5, h1, h6, hwr]
    omega
  · rw [h3 (by omega)]
    exact ⟨hq, hm, hfu, hw, hr, hwr⟩

theorem CursorInv_read (ch ch1 : Channel) (sup sup1 : Supervisor)
    (hinv : CursorInv ch) (h : readSolution ch sup = Outcome.returned (ch1, sup1)) :
    CursorInv ch1 := by
  obtain ⟨hq, hm, hfu, hw, hr, hwr⟩ := hinv
  obtain ⟨h1, h2, h3, h4, h5, h6⟩ := readSolution_cursors ch ch1 sup sup1 h
  unfold CursorInv
  simp only [MAX_SOLS] at *
  refine ⟨h6.trans hq, h5.trans hm, by omega, by omega, by omega, ?_⟩
  rw [h1, h2, hwr]
  omega

theorem CursorInv_runCalls (calls rest : List Call) :
    ∀ (ch : Channel) (sup : Supervisor) (r : Run), CursorInv ch →
      runCalls ch sup (calls ++ rest) = some r →
      ∃ r1, runCalls ch sup calls = some r1 ∧ CursorInv r1.ch := by
  induction calls with
  | nil =>
    intro ch sup r hinv _
    exact ⟨_, rfl, hinv⟩
  | cons call calls ih =>
    intro ch sup r hinv h
    cases call with
    | write arcSet k =>
      simp only [List.cons_append, runCalls] at h ⊢
      split at h
      · rename_i ch1 hw
        exact ih ch1 sup r (CursorInv_write ch ch1 arcSet k hinv hw) h
      · exact Option.noConfusion h
    | read =>
      simp only [List.cons_append, runCalls] at h ⊢
      split at h
      · rename_i ch1 sup1 hr
        simp only [Option.map_eq_some'] at h
        obtain ⟨r2, hr2, -⟩ := h
        obtain ⟨r1, hr1, hinv1⟩ := ih ch1 sup1 r2 (CursorInv_read ch ch1 sup sup1 hinv hr) hr2
        refine ⟨{ r1 with reads := slotAtReadPos ch :: r1.reads }, ?_, hinv1⟩
        simp [hr1]
      · exact Option.noConfusion h

/-- Claim C12: in every state reached from the supervisor's initialisation by
`writeSolution` / `readSolution` calls of one worker and the supervisor, both
cursors lie in `[0, MAX_SOLS)` and the write cursor is ahead of the read cursor
by the used-permit count modulo `MAX_SOLS`; from such a state a non-discarded
`writeSolution` moves `write_pos` to `(write_pos + 1) % MAX_SOLS` and keeps
`read_pos`, and a `readSolution` moves `read_pos` to `(read_pos + 1) % MAX_SOLS`
and keeps `write_pos`. -/
theorem cursor_invariant (calls rest : List Call) (r : Run)
    (h : runCalls initChannel initSupervisor (calls ++ rest) = some r) :
    ∃ r1, runCalls initChannel initSupervisor calls = some r1 ∧
      r1.ch.shared_space.write_pos < MAX_SOLS ∧ r1.ch.shared_space.read_pos < MAX_SOLS ∧
      (r1.ch.shared_space.write_pos + MAX_SOLS - r1.ch.shared_space.read_pos) % MAX_SOLS
        = r1.ch.usedSpace_sem % MAX_SOLS ∧
      (∀ arcSet k ch1, k ≤ MAX_SOL_LEN / 2 →
        writeSolution r1.ch arcSet k = Outcome.returned ch1 →
        ch1.shared_space.write_pos = (r1.ch.shared_space.write_pos + 1) % MAX_SOLS ∧
        ch1.shared_space.read_pos = r1.ch.shared_space.read_pos) ∧
      (∀ sup ch1 sup1, readSolution r1.ch sup = Outcome.returned (ch1, sup1) →
        ch1.shared_space.read_pos = (r1.ch.shared_space.read_pos + 1) % MAX_SOLS ∧
        ch1.shared_space.write_pos = r1.ch.shared_space.write_pos) := by
  obtain ⟨r1, hr1, -, -, hfu, hw, hr, hwr⟩ :=
    CursorInv_runCalls calls rest initChannel initSupervisor r
      ⟨rfl, rfl, rfl, by decide, by decide, rfl⟩ h
  refine ⟨r1, hr1, hw, hr, ?_, ?_, ?_⟩
  · simp only [MAX_SOLS] at *
    omega
  · intro arcSet k ch1 hk hwrite
    obtain ⟨h1, h2, -⟩ := writeSolution_cursors r1.ch ch1 arcSet k hwrite
    exact ⟨(h2 hk).1, h1⟩
  · intro sup ch1 sup1 hread
    obtain ⟨h1, h2, -⟩ := readSolution_cursors r1.ch ch1 sup sup1 hread
    exact ⟨h1, h2⟩

/-- Witness for `cursor_invariant`: the state after three publishes of
scenario 1, with the three reads still to come. -/
theorem cursor_invariant_witness :
    ∃ r1, runCalls initChannel initSupervisor (scenarioCalls.take 3) = some r1 ∧
      r1.ch.shared_space.write_pos < MAX_SOLS ∧ r1.ch.shared_space.read_pos < MAX_SOLS ∧
      (r1.ch.shared_space.write_pos + MAX_SOLS - r1.ch.shared_space.read_pos) % MAX_SOLS
        = r1.ch.usedSpace_sem % MAX_SOLS ∧
      (∀ arcSet k ch1, k ≤ MAX_SOL_LEN / 2 →
        writeSolution r1.ch arcSet k = Outcome.returned ch1 →
        ch1.shared_space.write_pos = (r1.ch.shared_space.write_pos + 1) % MAX_SOLS ∧
        ch1.shared_space.read_pos = r1.ch.shared_space.read_pos) ∧
      (∀ sup ch1 sup1, readSolution r1.ch sup = Outcome.returned (ch1, sup1) →
        ch1.shared_space.read_pos = (r1.ch.shared_space.read_pos + 1) % MAX_SOLS ∧
        ch1.shared_space.write_pos = r1.ch.shared_space.write_pos) :=
  have hsome : (runCalls initChannel initSupervisor
      (scenarioCalls.take 3 ++ scenarioCalls.drop 3)).isSome = true := by decide
  cursor_invariant (scenarioCalls.take 3) (scenarioCalls.drop 3)
    ((runCalls initChannel initSupervisor
      (scenarioCalls.take 3 ++ scenarioCalls.drop 3)).get hsome)
    (Option.some_get hsome).symm

/-! ## The shuffle -/

theorem swapNodes_length (nodeSet : List Int) (a b : Nat) :
    (swapNodes nodeSet a b).length = nodeSet.length := by
  simp [swapNodes]

theorem swapNodes_perm (nodeSet : List Int) (a b : Nat) (ha : a < nodeSet.length)
    (hb : b < nodeSet.length) : (swapNodes nodeSet a b).Perm nodeSet := by
  rw [List.perm_iff_count]
  intro x
  have h1 := List.boole_getElem_le_count x nodeSet a ha
  have h2 := List.boole_getElem_le_count x nodeSet b hb
  simp only [swapNodes, List.getD_eq_getElem?_getD, List.getElem?_eq_getElem ha,
    List.getElem?_eq_getElem hb, Option.getD_some]
  rw [List.count_set _ _ _ _ (by simpa using hb), List.count_set _ _ _ _ ha]
  by_cases hab : a = b
  · subst hab
    simp only [List.getElem_set_self]
    generalize (if (nodeSet[a] == x) = true then 1 else 0) = p at *
    omega
  · rw [List.getElem_set_ne hab]
    generalize (if (nodeSet[a] == x) = true then 1 else 0) = p at *
    generalize (if (nodeSet[b] == x) = true then 1 else 0) = q at *
    omega

theorem shuffleLoop_steps (rand : Nat → Nat) :
    ∀ (i : Nat) (nodeSet : List Int) (randCalls : Nat),
      shuffleLoop rand i (nodeSet, randCalls)
        = ((shuffleSteps rand i randCalls).foldl
            (fun acc step => swapNodes acc step.2 step.1) nodeSet, randCalls + i) := by
  intro i
  induction i with
  | zero =>
    intro nodeSet randCalls
    rfl
  | succ i ih =>
    intro nodeSet randCalls
    simp only [shuffleLoop, shuffleSteps, List.foldl_cons]
    rw [ih]
    simp only [swapNodes, Prod.mk.injEq, true_and]
    omega

theorem shuffleSteps_bounds (rand : Nat → Nat) :
    ∀ (i randCalls : Nat) (step : Nat × Nat), step ∈ shuffleSteps rand i randCalls →
      0 < step.1 ∧ step.1 ≤ i ∧ step.2 < step.1 := by
  intro i
  induction i with
  | zero =>
    intro randCalls step h
    simp [shuffleSteps] at h
  | succ i ih =>
    intro randCalls step h
    simp only [shuffleSteps, List.mem_cons] at h
    rcases h with rfl | h
    · exact ⟨by omega, le_refl _, Nat.mod_lt _ (by omega)⟩
    · obtain ⟨h1, h2, h3⟩ := ih _ step h
      exact ⟨h1, by omega, h3⟩

theorem foldl_swapNodes_perm (steps : List (Nat × Nat)) :
    ∀ nodeSet : List Int,
      (∀ step ∈ steps, step.1 < nodeSet.length ∧ step.2 < nodeSet.length) →
      (steps.foldl (fun acc step => swapNodes acc step.2 step.1) nodeSet).Perm nodeSet := by
  induction steps with
  | nil =>
    intro nodeSet _
    exact List.Perm.refl _
  | cons step steps ih =>
    intro nodeSet h
    obtain ⟨h1, h2⟩ := h step (List.mem_cons_self _ _)
    simp only [List.foldl_cons]
    refine (ih _ ?_).trans (swapNodes_perm nodeSet step.2 step.1 h2 h1)
    intro s hs
    rw [swapNodes_length]
    exact h s (List.mem_cons_of_mem _ hs)

theorem shuffleNodes_perm (rand : Nat → Nat) (nodeSet : List Int) (randCalls : Nat) :
    (shuffleNodes rand nodeSet randCalls).1.Perm nodeSet := by
  simp only [shuffleNodes, shuffleLoop_steps]
  apply foldl_swapNodes_perm
  intro step hstep
  obtain ⟨h1, h2, h3⟩ := shuffleSteps_bounds rand _ _ step hstep
  omega

/-- Claim C19: for every node set and every sequence of `rand()` outcomes, the
array after `shuffleNodes` is a permutation of the array before it (same length,
same multiset of node ids); the call is the sequence of swaps listed by
`shuffleSteps`, and in each of them the modulus `i` of `rand() % i` is at least
1 and both swapped indices lie in `[0, n)`. -/
theorem shuffleNodes_preserves_nodeSet (rand : Nat → Nat) (nodeSet : List Int)
    (randCalls : Nat) :
    (shuffleNodes rand nodeSet randCalls).1.Perm nodeSet ∧
    (shuffleNodes rand nodeSet randCalls).1.length = nodeSet.length ∧
    (∀ x, (shuffleNodes rand nodeSet randCalls).1.count x = nodeSet.count x) ∧
    (shuffleNodes rand nodeSet randCalls).1
      = (shuffleSteps rand (nodeSet.length - 1) randCalls).foldl
          (fun acc step => swapNodes acc step.2 step.1) nodeSet ∧
    ∀ step ∈ shuffleSteps rand (nodeSet.length - 1) randCalls,
      0 < step.1 ∧ step.1 < nodeSet.length ∧ step.2 < nodeSet.length := by
  have hperm := shuffleNodes_perm rand nodeSet randCalls
  refine ⟨hperm, hperm.length_eq, fun x => hperm.count_eq x, ?_, ?_⟩
  · simp only [shuffleNodes, shuffleLoop_steps]
  · intro step hstep
    obtain ⟨h1, h2, h3⟩ := shuffleSteps_bounds rand _ _ step hstep
    omega

/-- Claim C15 fails on the node set 1, 2: `shuffleNodes` draws `rand() % i`, an
index below `i`, so with two nodes it always swaps them and the order 1, 2 is
never the result, whatever `rand()` returns; the reference Fisher-Yates
procedure, drawing from `0..i` inclusive, leaves 1, 2 in place when the draw is
1. -/
theorem shuffleNodes_not_fisherYates (rand : Nat → Nat) (randCalls : Nat) :
    (shuffleNodes rand [1, 2] randCalls).1 = [2, 1] ∧
    (shuffleNodes rand [1, 2] randCalls).1 ≠ [1, 2] ∧
    (fisherYates (fun _ => 1) [1, 2] 0).1 = [1, 2] := by
  have h : (shuffleNodes rand [1, 2] randCalls).1 = [2, 1] := by
    simp [shuffleNodes, shuffleLoop, Nat.mod_one]
  refine ⟨h, ?_, by decide⟩
  rw [h]
  decide

/-! ## The greedy scan -/

theorem areConnected_iff (edgeList : List Edge) (u v : Int) :
    areConnected edgeList u v = 'y' ↔ HasEdge edgeList u v := by
  induction edgeList with
  | nil => simp [areConnected, HasEdge]
  | cons e rest ih =>
    simp only [areConnected, HasEdge, List.mem_cons, exists_eq_or_imp]
    by_cases h : e.fromNode = u ∧ e.toNode = v
    · simp [h]
    · simp only [h, if_false, false_or]
      exact ih

theorem pairsInner_eq (edgeList : List Edge) (nodeSet : List Int) (i : Nat) :
    ∀ bound, pairsInner edgeList nodeSet i bound
      = ((List.range bound).reverse.filter
          (fun j => decide (HasEdge edgeList (nodeSet.getD i 0) (nodeSet.getD j 0)))).map
          (fun j => (nodeSet.getD i 0, nodeSet.getD j 0)) := by
  intro bound
  induction bound with
  | zero => rfl
  | succ j ih =>
    rw [pairsInner, ih, List.range_succ, List.reverse_append, List.reverse_singleton,
      List.singleton_append, List.filter_cons]
    by_cases h : HasEdge edgeList (nodeSet.getD i 0) (nodeSet.getD j 0)
    · rw [if_pos ((areConnected_iff _ _ _).mpr h), if_pos (decide_eq_true h)]
      rfl
    · rw [if_neg (mt (areConnected_iff _ _ _).mp h), if_neg (by simpa using h)]
      rfl

theorem pairsOuter_eq (edgeList : List Edge) (nodeSet : List Int) :
    ∀ top, pairsOuter edgeList nodeSet top
      = ((List.range (top + 1)).reverse.filter (fun i => decide (1 ≤ i))).flatMap
          (fun i =>
            ((List.range (i + 1)).reverse.filter
              (fun j => decide (HasEdge edgeList (nodeSet.getD i 0) (nodeSet.getD j 0)))).map
              (fun j => (nodeSet.getD i 0, nodeSet.getD j 0))) := by
  intro top
  induction top with
  | zero => rfl
  | succ i ih =>
    have hr : (List.range (i + 1 + 1)).reverse = (i + 1) :: (List.range (i + 1)).reverse := by
      rw [List.range_succ, List.reverse_append]
      rfl
    rw [pairsOuter, ih]
    conv => rhs; rw [hr, List.filter_cons, if_pos (by simp), List.flatMap_cons]
    rw [pairsInner_eq]

theorem qualifyingPairs_eq (edgeList : List Edge) (nodeSet : List Int) :
    qualifyingPairs edgeList nodeSet = pairsOuter edgeList nodeSet (nodeSet.length - 1) := by
  rw [pairsOuter_eq]
  cases nodeSet with
  | nil => rfl
  | cons x xs =>
    simp only [qualifyingPairs, List.length_cons, Nat.add_sub_cancel]

theorem countInner_eq (edgeList : List Edge) (nodeSet : List Int) (i : Nat) :
    ∀ bound, countInner edgeList nodeSet i bound
      = (pairsInner edgeList nodeSet i bound).length := by
  intro bound
  induction bound with
  | zero => rfl
  | succ j ih =>
    simp only [countInner, pairsInner, ih, List.length_append]
    split <;> simp

theorem countOuter_eq (edgeList : List Edge) (nodeSet : List Int) :
    ∀ top, countOuter edgeList nodeSet top = (pairsOuter edgeList nodeSet top).length := by
  intro top
  induction top with
  | zero => rfl
  | succ i ih =>
    simp only [countOuter, pairsOuter, ih, countInner_eq, List.length_append]

theorem flatPairs_append (ps qs : List (Int × Int)) :
    flatPairs (ps ++ qs) = flatPairs ps ++ flatPairs qs := by
  simp [flatPairs]

theorem flatPairs_length (ps : List (Int × Int)) : (flatPairs ps).length = 2 * ps.length := by
  induction ps with
  | nil => rfl
  | cons p ps ih =>
    simp only [flatPairs, List.flatMap_cons, List.length_append, List.length_cons,
      List.length_nil] at ih ⊢
    omega

theorem take_set_two (a : List Int) (c : Nat) (x y : Int) (h : c + 1 < a.length) :
    ((a.set c x).set (c + 1) y).take (c + 2) = a.take c ++ [x, y] := by
  have h1 : ((a.set c x).set (c + 1) y).take (c + 1) = a.take c ++ [x] := by
    rw [List.set_take, List.set_eq_of_length_le (by simp), List.take_succ,
      List.set_take, List.set_eq_of_length_le (by simp), List.getElem?_set_self (by omega)]
    rfl
  rw [show c + 2 = c + 1 + 1 from rfl, List.take_succ, h1,
    List.getElem?_set_self (by simpa using h)]
  simp

theorem ScanTo_refl (st : Scan) (h : st.arcSet.length = MAX_SOL_LEN) : ScanTo st st [] := by
  refine ⟨h, rfl, rfl, rfl, ?_⟩
  simp [flatPairs]

theorem ScanTo_trans (a b c : Scan) (ps qs : List (Int × Int)) (h1 : ScanTo a b ps)
    (h2 : ScanTo b c qs) : ScanTo a c (ps ++ qs) := by
  obtain ⟨-, b2, b3, b4, b5⟩ := h1
  obtain ⟨c1, c2, c3, c4, c5⟩ := h2
  refine ⟨c1, ?_, ?_, c4.trans b4, ?_⟩
  · rw [c2, b2, List.length_append]
    omega
  · rw [c3, b3, List.length_append]
    omega
  · rw [c5, b5, flatPairs_append, List.append_assoc]

theorem scanInner_succ (edgeList : List Edge) (nodeSet : List Int) (i j : Nat) (st : Scan) :
    scanInner edgeList nodeSet i (j + 1) st
      = scanInner edgeList nodeSet i j
          (if areConnected edgeList (nodeSet.getD i 0) (nodeSet.getD j 0) = 'y' then
            recordPair st (nodeSet.getD i 0) (nodeSet.getD j 0)
          else st) := rfl

theorem ScanTo_record (st : Scan) (x y : Int) (hlen : st.arcSet.length = MAX_SOL_LEN)
    (hroom : st.solCounter + 2 ≤ MAX_SOL_LEN) :
    ScanTo st (recordPair st x y) [(x, y)] := by
  have h1 : st.solCounter < MAX_SOL_LEN := by omega
  have h2 : st.solCounter + 1 < MAX_SOL_LEN := by omega
  simp only [recordPair, writeArc, h1, h2, if_true]
  refine ⟨by simpa using hlen, rfl, rfl, rfl, ?_⟩
  simp only [flatPairs, List.flatMap_cons, List.flatMap_nil, List.append_nil]
  exact take_set_two st.arcSet st.solCounter x y (by rw [hlen]; exact h2)

theorem scanInner_spec (edgeList : List Edge) (nodeSet : List Int) (i : Nat) :
    ∀ (bound : Nat) (st : Scan), st.arcSet.length = MAX_SOL_LEN →
      st.solCounter + 2 * (pairsInner edgeList nodeSet i bound).length ≤ MAX_SOL_LEN →
      ScanTo st (scanInner edgeList nodeSet i bound st) (pairsInner edgeList nodeSet i bound) := by
  intro bound
  induction bound with
  | zero =>
    intro st hlen _
    exact ScanTo_refl st hlen
  | succ j ih =>
    intro st hlen hroom
    rw [scanInner_succ]
    simp only [pairsInner] at hroom ⊢
    by_cases hc : areConnected edgeList (nodeSet.getD i 0) (nodeSet.getD j 0) = 'y'
    · simp only [hc, if_true, List.length_append, List.length_singleton] at hroom ⊢
      have hrec := ScanTo_record st (nodeSet.getD i 0) (nodeSet.getD j 0) hlen (by omega)
      refine ScanTo_trans _ _ _ _ _ hrec (ih _ hrec.1 ?_)
      rw [hrec.2.1]
      simp only [List.length_singleton]
      omega
    · simp only [hc, if_false, List.nil_append] at hroom ⊢
      exact ih st hlen hroom

theorem scanOuter_spec (edgeList : List Edge) (nodeSet : List Int) :
    ∀ (top : Nat) (st : Scan), st.arcSet.length = MAX_SOL_LEN →
      st.solCounter + 2 * (pairsOuter edgeList nodeSet top).length ≤ MAX_SOL_LEN →
      ScanTo st (scanOuter edgeList nodeSet top st) (pairsOuter edgeList nodeSet top) := by
  intro top
  induction top with
  | zero =>
    intro st hlen _
    exact ScanTo_refl st hlen
  | succ i ih =>
    intro st hlen hroom
    simp only [scanOuter, pairsOuter, List.length_append] at hroom ⊢
    have hin := scanInner_spec edgeList nodeSet (i + 1) (i + 2) st hlen (by omega)
    refine ScanTo_trans _ _ _ _ _ hin (ih _ hin.1 ?_)
    rw [hin.2.1]
    omega

theorem fillLoop_spec :
    ∀ (fuel solCounter : Nat) (arcSet : List Int), arcSet.length = MAX_SOL_LEN →
      MAX_SOL_LEN ≤ solCounter + fuel → solCounter ≤ MAX_SOL_LEN →
      fillLoop fuel solCounter arcSet
        = arcSet.take solCounter ++ List.replicate (MAX_SOL_LEN - solCounter) (-1) := by
  intro fuel
  induction fuel with
  | zero =>
    intro c a hlen hf hc
    have : c = MAX_SOL_LEN := by omega
    subst this
    simp [fillLoop, ← hlen]
  | succ f ih =>
    intro c a hlen hf hc
    simp only [fillLoop]
    split
    · rename_i hlt
      rw [ih (c + 1) _ (by simpa using hlen) (by omega) (by omega), List.take_succ,
        List.set_take, List.set_eq_of_length_le (by simp),
        List.getElem?_set_self (by rw [hlen]; exact hlt)]
      obtain ⟨d, hd⟩ : ∃ d, MAX_SOL_LEN - c = d + 1 := ⟨MAX_SOL_LEN - c - 1, by omega⟩
      rw [hd, show MAX_SOL_LEN - (c + 1) = d by omega, List.replicate_succ]
      simp
    · rename_i hge
      have : c = MAX_SOL_LEN := by omega
      subst this
      simp [← hlen]

theorem findFeedbackArc_spec (rand : Nat → Nat) (g : Generator)
    (hlen : g.arcSet.length = MAX_SOL_LEN)
    (hq : (qualifyingPairs g.edgeList (findFeedbackArc rand g).nodeSet).length
      ≤ MAX_SOL_LEN / 2) :
    (findFeedbackArc rand g).sizeArcSet
      = (qualifyingPairs g.edgeList (findFeedbackArc rand g).nodeSet).length ∧
    (findFeedbackArc rand g).arcSet
      = flatPairs (qualifyingPairs g.edgeList (findFeedbackArc rand g).nodeSet)
        ++ List.replicate
          (MAX_SOL_LEN
            - 2 * (qualifyingPairs g.edgeList (findFeedbackArc rand g).nodeSet).length) (-1) ∧
    (findFeedbackArc rand g).arcOverflow = g.arcOverflow := by
  have hns : (findFeedbackArc rand g).nodeSet = (shuffleNodes rand g.nodeSet g.randCalls).1 :=
    rfl
  rw [hns, qualifyingPairs_eq] at hq ⊢
  have hscan := scanOuter_spec g.edgeList (shuffleNodes rand g.nodeSet g.randCalls).1
    ((shuffleNodes rand g.nodeSet g.randCalls).1.length - 1)
    { arcSet := g.arcSet, sizeArcSet := 0, solCounter := 0, arcOverflow := g.arcOverflow }
    hlen (by simp only [MAX_SOL_LEN] at hq ⊢; omega)
  obtain ⟨h1, h2, h3, h4, h5⟩ := hscan
  simp only [Nat.zero_add, List.take_zero, List.nil_append] at h2 h3 h5
  refine ⟨h3, ?_, h4⟩
  show fillLoop MAX_SOL_LEN _ _ = _
  rw [fillLoop_spec _ _ _ h1 (by omega) (by rw [h2]; simp only [MAX_SOL_LEN] at hq ⊢; omega),
    h5, h2]

theorem getD_eq_getElem_of_lt (l : List Int) (i : Nat) (h : i < l.length) :
    l.getD i 0 = l[i] := by
  rw [List.getD_eq_getElem?_getD, List.getElem?_eq_getElem h]
  rfl

theorem qualifyingPairs_index (edgeList : List Edge) (nodeSet : List Int) (p : Int × Int)
    (h : p ∈ qualifyingPairs edgeList nodeSet) :
    ∃ i j, 1 ≤ i ∧ i < nodeSet.length ∧ j ≤ i ∧
      p = (nodeSet.getD i 0, nodeSet.getD j 0) ∧ HasEdge edgeList p.1 p.2 := by
  simp only [qualifyingPairs, List.mem_flatMap, List.mem_filter, List.mem_reverse,
    List.mem_range, decide_eq_true_eq, List.mem_map] at h
  obtain ⟨i, ⟨hi, hi1⟩, j, ⟨hj, hedge⟩, rfl⟩ := h
  exact ⟨i, j, hi1, hi, by omega, rfl, hedge⟩

theorem qualifyingPairs_nodup (edgeList : List Edge) (nodeSet : List Int)
    (hnodup : nodeSet.Nodup) : (qualifyingPairs edgeList nodeSet).Nodup := by
  have hinj : ∀ i j, i < nodeSet.length → j < nodeSet.length →
      nodeSet.getD i 0 = nodeSet.getD j 0 → i = j := by
    intro i j hi hj heq
    rw [getD_eq_getElem_of_lt _ _ hi, getD_eq_getElem_of_lt _ _ hj] at heq
    exact hnodup.getElem_inj_iff.mp heq
  have hidx : ((List.range nodeSet.length).reverse.filter (fun i => decide (1 ≤ i))).Nodup :=
    (List.nodup_reverse.mpr (List.nodup_range _)).filter _
  rw [qualifyingPairs, List.nodup_flatMap]
  constructor
  · intro i hi
    simp only [List.mem_filter, List.mem_reverse, List.mem_range] at hi
    apply List.Nodup.map_on
    · intro a ha b hb hab
      simp only [List.mem_filter, List.mem_reverse, List.mem_range] at ha hb
      exact hinj a b (by omega) (by omega) (Prod.mk.inj hab).2
    · exact (List.nodup_reverse.mpr (List.nodup_range _)).filter _
  · apply hidx.pairwise_of_forall_ne
    intro a ha b hb hab
    simp only [List.mem_filter, List.mem_reverse, List.mem_range] at ha hb
    simp only [Function.onFun]
    intro p hpa hpb
    simp only [List.mem_map] at hpa hpb
    obtain ⟨ja, -, rfl⟩ := hpa
    obtain ⟨jb, -, heq⟩ := hpb
    exact hab (hinj a b ha.1 hb.1 (Prod.mk.inj heq).1.symm)

/-- Claim C17: with `nodeSet` the node set as the scan sees it (after the
shuffle inside `findFeedbackArc`; it is what the call leaves in `nodeSet`), when
at most `MAX_SOL_LEN / 2` index pairs `(i, j)` with `1 ≤ i ≤ n - 1`, `0 ≤ j ≤ i`
have an edge from `nodeSet[i]` to `nodeSet[j]`, `findFeedbackArc` sets
`sizeArcSet` to their number and `arcSet` to those pairs, `i` descending then `j`
descending, followed by -1 up to index 99, and writes nowhere else; on a
duplicate-free node set each pair is listed once and a self-loop on `nodeSet[0]`
is not among them. -/
theorem findFeedbackArc_exact (rand : Nat → Nat) (g : Generator)
    (hlen : g.arcSet.length = MAX_SOL_LEN) (hnodup : g.nodeSet.Nodup)
    (hq : (qualifyingPairs g.edgeList (findFeedbackArc rand g).nodeSet).length
      ≤ MAX_SOL_LEN / 2) :
    (findFeedbackArc rand g).sizeArcSet
      = (qualifyingPairs g.edgeList (findFeedbackArc rand g).nodeSet).length ∧
    (findFeedbackArc rand g).arcSet
      = flatPairs (qualifyingPairs g.edgeList (findFeedbackArc rand g).nodeSet)
        ++ List.replicate
          (MAX_SOL_LEN
            - 2 * (qualifyingPairs g.edgeList (findFeedbackArc rand g).nodeSet).length) (-1) ∧
    (findFeedbackArc rand g).arcOverflow = g.arcOverflow ∧
    (qualifyingPairs g.edgeList (findFeedbackArc rand g).nodeSet).Nodup ∧
    ∀ x, (findFeedbackArc rand g).nodeSet.head? = some x →
      (x, x) ∉ qualifyingPairs g.edgeList (findFeedbackArc rand g).nodeSet := by
  obtain ⟨h1, h2, h3⟩ := findFeedbackArc_spec rand g hlen hq
  have hns : (findFeedbackArc rand g).nodeSet = (shuffleNodes rand g.nodeSet g.randCalls).1 :=
    rfl
  have hnd : (findFeedbackArc rand g).nodeSet.Nodup := by
    rw [hns]
    exact (shuffleNodes_perm rand g.nodeSet g.randCalls).nodup_iff.mpr hnodup
  refine ⟨h1, h2, h3, qualifyingPairs_nodup _ _ hnd, ?_⟩
  intro x hx hmem
  obtain ⟨i, j, hi1, hi, -, heq, -⟩ := qualifyingPairs_index _ _ _ hmem
  generalize (findFeedbackArc rand g).nodeSet = ns at hx hnd hi heq
  cases ns with
  | nil => simp at hi
  | cons y ys =>
    simp only [List.head?_cons, Option.some.injEq] at hx
    subst hx
    have h0 : (y :: ys).getD 0 0 = y := rfl
    have hxi : (y :: ys).getD i 0 = (y :: ys).getD 0 0 := by
      rw [h0]
      exact (Prod.mk.inj heq).1.symm
    rw [getD_eq_getElem_of_lt _ _ hi, getD_eq_getElem_of_lt _ _ (by simp)] at hxi
    have := hnd.getElem_inj_iff.mp hxi
    omega

/-- Witness for `findFeedbackArc_exact`: the graph 1-3, 1-2, 2-3 with `rand()`
returning 0. -/
theorem findFeedbackArc_exact_witness :
    (findFeedbackArc (fun _ => 0) oddGenerator).sizeArcSet
      = (qualifyingPairs oddGenerator.edgeList
          (findFeedbackArc (fun _ => 0) oddGenerator).nodeSet).length :=
  (findFeedbackArc_exact (fun _ => 0) oddGenerator (by decide) (by decide) (by decide)).1

theorem recordPair_overflow (st : Scan) (x y : Int) :
    (recordPair st x y).solCounter = st.solCounter + 2 ∧ OverflowSeen (recordPair st x y) := by
  simp only [OverflowSeen]
  by_cases h1 : st.solCounter < MAX_SOL_LEN
  · by_cases h2 : st.solCounter + 1 < MAX_SOL_LEN
    · simp only [recordPair, writeArc, h1, h2, if_true, true_and]
      intro hgt
      omega
    · simp only [recordPair, writeArc, h1, h2, if_true, if_false, true_and, implies_true]
  · by_cases h2 : st.solCounter + 1 < MAX_SOL_LEN
    · omega
    · simp only [recordPair, writeArc, h1, h2, if_false, true_and, implies_true]

theorem scanInner_overflow (edgeList : List Edge) (nodeSet : List Int) (i : Nat) :
    ∀ (bound : Nat) (st : Scan), OverflowSeen st →
      (scanInner edgeList nodeSet i bound st).solCounter
        = st.solCounter + 2 * countInner edgeList nodeSet i bound ∧
      OverflowSeen (scanInner edgeList nodeSet i bound st) := by
  intro bound
  induction bound with
  | zero =>
    intro st h
    exact ⟨rfl, h⟩
  | succ j ih =>
    intro st h
    rw [scanInner_succ]
    simp only [countInner]
    by_cases hc : areConnected edgeList (nodeSet.getD i 0) (nodeSet.getD j 0) = 'y'
    · simp only [hc, if_true]
      obtain ⟨h1, h2⟩ := recordPair_overflow st (nodeSet.getD i 0) (nodeSet.getD j 0)
      obtain ⟨h3, h4⟩ := ih _ h2
      exact ⟨by rw [h3, h1]; omega, h4⟩
    · simp only [hc, if_false]
      obtain ⟨h3, h4⟩ := ih _ h
      exact ⟨by rw [h3]; omega, h4⟩

theorem scanOuter_overflow (edgeList : List Edge) (nodeSet : List Int) :
    ∀ (top : Nat) (st : Scan), OverflowSeen st →
      (scanOuter edgeList nodeSet top st).solCounter
        = st.solCounter + 2 * countOuter edgeList nodeSet top ∧
      OverflowSeen (scanOuter edgeList nodeSet top st) := by
  intro top
  induction top with
  | zero =>
    intro st h
    exact ⟨rfl, h⟩
  | succ i ih =>
    intro st h
    simp only [scanOuter, countOuter]
    obtain ⟨h1, h2⟩ := scanInner_overflow edgeList nodeSet (i + 1) (i + 2) st h
    obtain ⟨h3, h4⟩ := ih _ h2
    exact ⟨by rw [h3, h1]; omega, h4⟩

theorem findFeedbackArc_overflow (rand : Nat → Nat) (g : Generator)
    (h : MAX_SOL_LEN / 2 < (findFeedbackArc rand g).sizeArcSet) :
    (findFeedbackArc rand g).arcOverflow = true := by
  rw [findFeedbackArc_sizeArcSet] at h
  obtain ⟨h1, h2⟩ := scanOuter_overflow g.edgeList (shuffleNodes rand g.nodeSet g.randCalls).1
    ((shuffleNodes rand g.nodeSet g.randCalls).1.length - 1)
    { arcSet := g.arcSet, sizeArcSet := 0, solCounter := 0, arcOverflow := g.arcOverflow }
    (by intro hlt; simp only [MAX_SOL_LEN] at hlt; omega)
  apply h2
  rw [h1]
  simp only [MAX_SOL_LEN] at h ⊢
  omega

theorem getArgs_pairs (progName : List Char) (pairs : List (Nat × Nat)) (hne : pairs ≠ [])
    (hfit : ∀ p ∈ pairs, p.1 ≤ INT_MAX ∧ p.2 ≤ INT_MAX) :
    getArgs (progName :: pairs.map pairArg)
      = Except.ok
          { edgeList := pairs.map pairEdge,
            nodeSet := collectNodes [] pairs,
            arcSet := List.replicate MAX_SOL_LEN (-1),
            sizeArcSet := 0,
            randCalls := 0,
            arcOverflow := false } := by
  obtain ⟨m1, hm1, hloop⟩ := getArgsLoop_spec pairs hfit [] [] 20 (by omega)
    (fun x hx => absurd hx (List.not_mem_nil x))
  obtain ⟨hpos, hnn⟩ := collectNodes_props pairs [] (fun x hx => absurd hx (List.not_mem_nil x))
  have hadj := adjustSetSize_spec (collectNodes [] pairs) m1 (hnn (Or.inr hne)) hpos
  have hlen : ¬ ((progName :: pairs.map pairArg).length ≤ 1) := by
    have := List.length_pos.mpr hne
    simp only [List.length_cons, List.length_map]
    omega
  simp only [List.nil_append] at hloop
  simp only [getArgs, hlen, if_false, List.drop_succ_cons, List.drop_zero, hloop, hadj]

set_option maxRecDepth 100000 in
theorem getArgs_denseArgv : getArgs denseArgv = Except.ok denseGenerator := by
  rw [denseArgv, getArgs_pairs ['g'] densePairs (by decide) (by decide)]
  have h : collectNodes [] densePairs = [0, 1, 2, 3, 4, 5, 6, 7, 8, 9] := by decide
  rw [h]
  rfl

theorem countInner_all (edgeList : List Edge) (nodeSet : List Int) (n : Nat)
    (hall : ∀ i j, i < n → j < n →
      areConnected edgeList (nodeSet.getD i 0) (nodeSet.getD j 0) = 'y')
    (i : Nat) (hi : i < n) :
    ∀ bound, bound ≤ n → countInner edgeList nodeSet i bound = bound := by
  intro bound
  induction bound with
  | zero =>
    intro _
    rfl
  | succ j ih =>
    intro hj
    simp only [countInner, hall i j hi (by omega), if_true, ih (by omega)]
    omega

set_option maxRecDepth 100000 in
theorem dense_all_connected :
    ∀ x ∈ denseGenerator.nodeSet, ∀ y ∈ denseGenerator.nodeSet,
      areConnected denseGenerator.edgeList x y = 'y' := by
  decide

theorem dense_sizeArcSet (rand : Nat → Nat) :
    (findFeedbackArc rand denseGenerator).sizeArcSet = 54 := by
  have hperm := shuffleNodes_perm rand denseGenerator.nodeSet denseGenerator.randCalls
  rw [findFeedbackArc_sizeArcSet]
  generalize (shuffleNodes rand denseGenerator.nodeSet denseGenerator.randCalls).1 = ns at hperm
  have hlen : ns.length = 10 := hperm.length_eq
  have hall : ∀ i j, i < 10 → j < 10 →
      areConnected denseGenerator.edgeList (ns.getD i 0) (ns.getD j 0) = 'y' := by
    intro i j hi hj
    rw [getD_eq_getElem_of_lt _ _ (by omega), getD_eq_getElem_of_lt _ _ (by omega)]
    exact dense_all_connected _ (hperm.subset (List.getElem_mem _)) _
      (hperm.subset (List.getElem_mem _))
  have hin : ∀ i bound, i < 10 → bound ≤ 10 →
      countInner denseGenerator.edgeList ns i bound = bound :=
    fun i bound hi hb => countInner_all _ ns 10 hall i hi bound hb
  rw [hlen]
  simp only [Nat.add_one_sub_one, countOuter, Nat.reduceAdd, Nat.reduceSub]
  rw [hin 9 10 (by omega) (by omega), hin 8 9 (by omega) (by omega),
    hin 7 8 (by omega) (by omega), hin 6 7 (by omega) (by omega),
    hin 5 6 (by omega) (by omega), hin 4 5 (by omega) (by omega),
    hin 3 4 (by omega) (by omega), hin 2 3 (by omega) (by omega),
    hin 1 2 (by omega) (by omega)]

/-- Claim C18 fails on `generator 0-0 0-1 ... 9-9` (the 100 ordered pairs of
the nodes 0..9): whatever `rand()` returns, the scan finds 54 backward pairs, and
since its loop has no bound on `solCounter` it writes `arcSet[100]` and beyond. -/
theorem findFeedbackArc_writes_outside (rand : Nat → Nat) :
    getArgs denseArgv = Except.ok denseGenerator ∧
    (findFeedbackArc rand denseGenerator).sizeArcSet = 54 ∧
    (findFeedbackArc rand denseGenerator).arcOverflow = true := by
  refine ⟨getArgs_denseArgv, dense_sizeArcSet rand, ?_⟩
  apply findFeedbackArc_overflow
  rw [dense_sizeArcSet]
  decide

/-! ## The worker's globals stay well formed -/

theorem getNodes_ok_nonneg (errnoRange : Bool) (edge : List Char) (fromNode toNode : Int)
    (h : getNodes errnoRange edge = Except.ok (fromNode, toNode)) :
    0 ≤ fromNode ∧ 0 ≤ toNode := by
  simp only [getNodes] at h
  split at h
  · exact Except.noConfusion h
  · split at h
    · exact Except.noConfusion h
    · split at h
      · exact Except.noConfusion h
      · split at h
        · exact Except.noConfusion h
        · rename_i hneg
          split at h
          · exact Except.noConfusion h
          · simp only [Except.ok.injEq, Prod.mk.injEq] at h
            obtain ⟨rfl, rfl⟩ := h
            simp only [not_or, not_lt] at hneg
            exact ⟨hneg.1, hneg.2.1⟩

theorem getArgsLoop_shape (args : List (List Char)) :
    ∀ (edgeList : List Edge) (filled : List Int) (m : Nat) (edgeList1 : List Edge)
      (nodeSet1 : List Int), 1 ≤ m → (∀ x ∈ filled, (0 : Int) ≤ x) →
      getArgsLoop args edgeList (filled ++ List.replicate m (-1))
        = Except.ok (edgeList1, nodeSet1) →
      ∃ filled1 m1, 1 ≤ m1 ∧ (∀ x ∈ filled1, (0 : Int) ≤ x) ∧
        (filled ≠ [] ∨ args ≠ [] → filled1 ≠ []) ∧
        nodeSet1 = filled1 ++ List.replicate m1 (-1) := by
  induction args with
  | nil =>
    intro edgeList filled m edgeList1 nodeSet1 hm hpos h
    simp only [getArgsLoop, Except.ok.injEq, Prod.mk.injEq] at h
    exact ⟨filled, m, hm, hpos, fun hor => hor.elim id (fun h2 => absurd rfl h2), h.2.symm⟩
  | cons arg rest ih =>
    intro edgeList filled m edgeList1 nodeSet1 hm hpos h
    simp only [getArgsLoop] at h
    split at h
    · exact Except.noConfusion h
    · rename_i fromNode toNode hnodes
      obtain ⟨hf, ht⟩ := getNodes_ok_nonneg false arg fromNode toNode hnodes
      obtain ⟨m1, hm1, hadd1⟩ := addToSet_spec filled m hm hpos fromNode
      have hpos1 := insertNode_nonneg filled fromNode hpos hf
      obtain ⟨m2, hm2, hadd2⟩ := addToSet_spec _ m1 hm1 hpos1 toNode
      have hpos2 := insertNode_nonneg _ toNode hpos1 ht
      simp only [hadd1, hadd2] at h
      obtain ⟨filled1, m3, hm3, hpos3, hne3, heq⟩ := ih _ _ m2 _ _ hm2 hpos2 h
      exact ⟨filled1, m3, hm3, hpos3, fun _ => hne3 (Or.inl (insertNode_ne_nil _ _)), heq⟩

theorem getArgs_wf (argv : List (List Char)) (g : Generator)
    (h : getArgs argv = Except.ok g) : GeneratorWF g := by
  simp only [getArgs] at h
  split at h
  · exact Except.noConfusion h
  · rename_i hlen
    split at h
    · exact Except.noConfusion h
    · rename_i edgeList nodeSet hloop
      have hloop2 : getArgsLoop (argv.drop 1) [] ([] ++ List.replicate 20 (-1))
          = Except.ok (edgeList, nodeSet) := hloop
      obtain ⟨filled, m, -, hpos, hne, rfl⟩ := getArgsLoop_shape (argv.drop 1) [] [] 20 _ _
        (by omega) (fun x hx => absurd hx (List.not_mem_nil x)) hloop2
      have hargs : argv.drop 1 ≠ [] := by
        intro hnil
        have := congrArg List.length hnil
        simp only [List.length_drop, List.length_nil] at this
        omega
      rw [adjustSetSize_spec filled m (hne (Or.inr hargs)) hpos] at h
      simp only [Except.ok.injEq] at h
      subst h
      exact ⟨by simp, hpos⟩

theorem writeArc_length (st : Scan) (index : Nat) (value : Int) :
    (writeArc st index value).arcSet.length = st.arcSet.length := by
  simp only [writeArc]
  split <;> simp

theorem scanInner_length (edgeList : List Edge) (nodeSet : List Int) (i : Nat) :
    ∀ (bound : Nat) (st : Scan),
      (scanInner edgeList nodeSet i bound st).arcSet.length = st.arcSet.length := by
  intro bound
  induction bound with
  | zero =>
    intro st
    rfl
  | succ j ih =>
    intro st
    rw [scanInner_succ, ih]
    split
    · simp only [recordPair, writeArc_length]
    · rfl

theorem scanOuter_length (edgeList : List Edge) (nodeSet : List Int) :
    ∀ (top : Nat) (st : Scan),
      (scanOuter edgeList nodeSet top st).arcSet.length = st.arcSet.length := by
  intro top
  induction top with
  | zero =>
    intro st
    rfl
  | succ i ih =>
    intro st
    simp only [scanOuter, ih, scanInner_length]

theorem fillLoop_length :
    ∀ (fuel solCounter : Nat) (arcSet : List Int),
      (fillLoop fuel solCounter arcSet).length = arcSet.length := by
  intro fuel
  induction fuel with
  | zero =>
    intro c a
    rfl
  | succ f ih =>
    intro c a
    simp only [fillLoop]
    split
    · rw [ih]
      simp
    · rfl

theorem findFeedbackArc_wf (rand : Nat → Nat) (g : Generator) (h : GeneratorWF g) :
    GeneratorWF (findFeedbackArc rand g) := by
  obtain ⟨h1, h2⟩ := h
  constructor
  · show (fillLoop MAX_SOL_LEN _ _).length = _
    rw [fillLoop_length, scanOuter_length]
    exact h1
  · intro x hx
    exact h2 x ((shuffleNodes_perm rand g.nodeSet g.randCalls).subset hx)

theorem generatorIterations_succ (rand : Nat → Nat) :
    ∀ (rounds : Nat) (g : Generator),
      generatorIterations rand (rounds + 1) g
        = findFeedbackArc rand (generatorIterations rand rounds g) := by
  intro rounds
  induction rounds with
  | zero =>
    intro g
    rfl
  | succ n ih =>
    intro g
    rw [generatorIterations, ih]
    rfl

theorem generatorIterations_wf (rand : Nat → Nat) :
    ∀ (rounds : Nat) (g : Generator), GeneratorWF g →
      GeneratorWF (generatorIterations rand rounds g) := by
  intro rounds
  induction rounds with
  | zero =>
    intro g h
    exact h
  | succ n ih =>
    intro g h
    exact ih _ (findFeedbackArc_wf rand g h)

theorem generatorIterations_edgeList (rand : Nat → Nat) :
    ∀ (rounds : Nat) (g : Generator),
      (generatorIterations rand rounds g).edgeList = g.edgeList := by
  intro rounds
  induction rounds with
  | zero =>
    intro g
    rfl
  | succ n ih =>
    intro g
    rw [generatorIterations, ih]
    rfl

/-! ## The shape of a stored slot -/

theorem flatPairs_cons (p : Int × Int) (ps : List (Int × Int)) :
    flatPairs (p :: ps) = p.1 :: p.2 :: flatPairs ps := by
  simp [flatPairs]

theorem flatPairs_getElem? (ps : List (Int × Int)) :
    ∀ t, (flatPairs ps)[2 * t]? = ps[t]?.map Prod.fst ∧
      (flatPairs ps)[2 * t + 1]? = ps[t]?.map Prod.snd := by
  induction ps with
  | nil =>
    intro t
    simp [flatPairs]
  | cons p ps ih =>
    intro t
    rw [flatPairs_cons]
    cases t with
    | zero => simp
    | succ t =>
      have h1 : 2 * (t + 1) = 2 * t + 1 + 1 := by omega
      rw [h1]
      simp only [List.getElem?_cons_succ]
      exact ih t

theorem flatPairs_mem (ps : List (Int × Int)) (x : Int) (h : x ∈ flatPairs ps) :
    ∃ p ∈ ps, x = p.1 ∨ x = p.2 := by
  simp only [flatPairs, List.mem_flatMap, List.mem_cons, List.mem_singleton,
    List.not_mem_nil, or_false] at h
  exact h

theorem findFeedbackArc_size_eq (rand : Nat → Nat) (g : Generator) :
    (findFeedbackArc rand g).sizeArcSet
      = (qualifyingPairs g.edgeList (findFeedbackArc rand g).nodeSet).length := by
  rw [findFeedbackArc_sizeArcSet, countOuter_eq, qualifyingPairs_eq]
  rfl

theorem candidate_shape (rand : Nat → Nat) (g : Generator) (hwf : GeneratorWF g)
    (hk : (findFeedbackArc rand g).sizeArcSet ≤ MAX_SOL_LEN / 2) :
    (∀ i, i < 2 * (findFeedbackArc rand g).sizeArcSet →
      0 ≤ (findFeedbackArc rand g).arcSet.getD i 0) ∧
    (∀ t, t < (findFeedbackArc rand g).sizeArcSet →
      HasEdge g.edgeList ((findFeedbackArc rand g).arcSet.getD (2 * t) 0)
        ((findFeedbackArc rand g).arcSet.getD (2 * t + 1) 0)) ∧
    (∀ i, 2 * (findFeedbackArc rand g).sizeArcSet ≤ i → i < MAX_SOL_LEN →
      (findFeedbackArc rand g).arcSet.getD i 0 = -1) := by
  have hsize := findFeedbackArc_size_eq rand g
  obtain ⟨-, harc, -⟩ := findFeedbackArc_spec rand g hwf.1 (by rw [← hsize]; exact hk)
  have hwf1 := findFeedbackArc_wf rand g hwf
  rw [← hsize] at harc
  have hflat := flatPairs_length (qualifyingPairs g.edgeList (findFeedbackArc rand g).nodeSet)
  rw [← hsize] at hflat
  have hnode : ∀ p ∈ qualifyingPairs g.edgeList (findFeedbackArc rand g).nodeSet,
      0 ≤ p.1 ∧ 0 ≤ p.2 ∧ HasEdge g.edgeList p.1 p.2 := by
    intro p hp
    obtain ⟨i, j, -, hi, hj, rfl, hedge⟩ := qualifyingPairs_index _ _ p hp
    refine ⟨?_, ?_, hedge⟩
    · show 0 ≤ (findFeedbackArc rand g).nodeSet.getD i 0
      rw [getD_eq_getElem_of_lt _ _ hi]
      exact hwf1.2 _ (List.getElem_mem _)
    · show 0 ≤ (findFeedbackArc rand g).nodeSet.getD j 0
      rw [getD_eq_getElem_of_lt _ _ (by omega)]
      exact hwf1.2 _ (List.getElem_mem _)
  refine ⟨?_, ?_, ?_⟩
  · intro i hi
    rw [harc, List.getD_eq_getElem?_getD, List.getElem?_append_left (by rw [hflat]; exact hi),
      List.getElem?_eq_getElem (by rw [hflat]; exact hi)]
    have hmem := List.getElem_mem (l := flatPairs
      (qualifyingPairs g.edgeList (findFeedbackArc rand g).nodeSet)) (by rw [hflat]; exact hi)
    obtain ⟨p, hp, hx⟩ := flatPairs_mem _ _ hmem
    simp only [Option.getD_some]
    rcases hx with hx | hx
    · rw [hx]
      exact (hnode p hp).1
    · rw [hx]
      exact (hnode p hp).2.1
  · intro t ht
    obtain ⟨h1, h2⟩ := flatPairs_getElem?
      (qualifyingPairs g.edgeList (findFeedbackArc rand g).nodeSet) t
    have htq : t < (qualifyingPairs g.edgeList (findFeedbackArc rand g).nodeSet).length := by
      rw [← hsize]
      exact ht
    rw [harc, List.getD_eq_getElem?_getD, List.getD_eq_getElem?_getD,
      List.getElem?_append_left (by rw [hflat]; omega),
      List.getElem?_append_left (by rw [hflat]; omega), h1, h2,
      List.getElem?_eq_getElem htq]
    exact (hnode _ (List.getElem_mem htq)).2.2
  · intro i hi hlt
    rw [harc, List.getD_eq_getElem?_getD, List.getElem?_append_right (by rw [hflat]; exact hi),
      List.getElem?_replicate, if_pos (by rw [hflat]; omega)]
    rfl

theorem writeArc_overflow_kept (st : Scan) (index : Nat) (value : Int)
    (h : st.arcOverflow = true) : (writeArc st index value).arcOverflow = true := by
  simp only [writeArc]
  split
  · exact h
  · rfl

theorem scanInner_overflow_kept (edgeList : List Edge) (nodeSet : List Int) (i : Nat) :
    ∀ (bound : Nat) (st : Scan), st.arcOverflow = true →
      (scanInner edgeList nodeSet i bound st).arcOverflow = true := by
  intro bound
  induction bound with
  | zero =>
    intro st h
    exact h
  | succ j ih =>
    intro st h
    rw [scanInner_succ]
    apply ih
    split
    · exact writeArc_overflow_kept _ _ _ (writeArc_overflow_kept _ _ _ h)
    · exact h

theorem scanOuter_overflow_kept (edgeList : List Edge) (nodeSet : List Int) :
    ∀ (top : Nat) (st : Scan), st.arcOverflow = true →
      (scanOuter edgeList nodeSet top st).arcOverflow = true := by
  intro top
  induction top with
  | zero =>
    intro st h
    exact h
  | succ i ih =>
    intro st h
    simp only [scanOuter]
    exact ih _ (scanInner_overflow_kept edgeList nodeSet (i + 1) (i + 2) st h)

/-- The mark of a store outside `arcSet` is never reset by a later round. -/
theorem findFeedbackArc_overflow_kept (rand : Nat → Nat) (g : Generator)
    (h : g.arcOverflow = true) : (findFeedbackArc rand g).arcOverflow = true :=
  scanOuter_overflow_kept _ _ _ _ h

/-- If no store outside `arcSet` is marked after `later` more rounds, none was
marked before them. -/
theorem generatorIterations_overflow_kept (rand : Nat → Nat) :
    ∀ (later : Nat) (g : Generator),
      (generatorIterations rand later g).arcOverflow = false → g.arcOverflow = false := by
  intro later
  induction later with
  | zero =>
    intro g h
    exact h
  | succ n ih =>
    intro g h
    have h1 := ih (findFeedbackArc rand g) h
    cases hg : g.arcOverflow with
    | false => rfl
    | true =>
      rw [findFeedbackArc_overflow_kept rand g hg] at h1
      exact Bool.noConfusion h1

/-- The slot shape in executions that stay inside `arcSet`.  Take the candidate
of any round of the worker (`getArgs` on any command line, then any number of
rounds of `findFeedbackArc` on any `rand()` outcomes) such that no store outside
`arcSet` has happened in this round or an earlier one, and hand it to
`writeSolution` on a channel where the call does not wait.  Then the candidate
has `k ≤ MAX_SOL_LEN / 2` edges and is stored: the slot under the old write
cursor holds `solutionLength = k` and 100 data entries, the entries `0 .. 2k-1`
are nonnegative node ids, pair by pair an edge of the input, and the entries
`2k .. 99` are -1. -/
theorem stored_slot_shape_in_bounds (argv : List (List Char)) (g0 : Generator)
    (rand : Nat → Nat) (rounds : Nat) (ch : Channel) (hargs : getArgs argv = Except.ok g0)
    (hno : (generatorIterations rand (rounds + 1) g0).arcOverflow = false) (hwf : ch.WF)
    (hq : ch.shared_space.quit = RUN) (hm : 0 < ch.mutex_sem) (hf : 0 < ch.freeSpace_sem) :
    ∃ ch1 data k,
      writeSolution ch (generatorIterations rand (rounds + 1) g0).arcSet
        (generatorIterations rand (rounds + 1) g0).sizeArcSet = Outcome.returned ch1 ∧
      data = (generatorIterations rand (rounds + 1) g0).arcSet ∧
      k = (generatorIterations rand (rounds + 1) g0).sizeArcSet ∧
      k ≤ MAX_SOL_LEN / 2 ∧
      slotAt ch1 ch.shared_space.write_pos = (data, k) ∧
      data.length = MAX_SOL_LEN ∧
      (∀ i, i < 2 * k → 0 ≤ data.getD i 0) ∧
      (∀ t, t < k → HasEdge g0.edgeList (data.getD (2 * t) 0) (data.getD (2 * t + 1) 0)) ∧
      (∀ i, 2 * k ≤ i → i < MAX_SOL_LEN → data.getD i 0 = -1) := by
  have hwf0 := getArgs_wf argv g0 hargs
  have hwfn := generatorIterations_wf rand rounds g0 hwf0
  have hedges := generatorIterations_edgeList rand rounds g0
  rw [generatorIterations_succ] at hno ⊢
  generalize generatorIterations rand rounds g0 = g at hwfn hedges hno
  have hwf1 := findFeedbackArc_wf rand g hwfn
  have hk : (findFeedbackArc rand g).sizeArcSet ≤ MAX_SOL_LEN / 2 := by
    by_contra hgt
    rw [findFeedbackArc_overflow rand g (by omega)] at hno
    exact Bool.noConfusion hno
  refine ⟨_, _, _, writeSolution_returned ch _ _ hwf hq hm hf hwf1.1 hk, rfl, rfl, hk, ?_⟩
  obtain ⟨h1, h2, h3⟩ := candidate_shape rand g hwfn hk
  rw [hedges] at h2
  refine ⟨?_, hwf1.1, h1, h2, h3⟩
  obtain ⟨w1, -, w3, w4, -⟩ := hwf
  simp only [slotAt]
  rw [List.getD_eq_getElem _ _ (by simp; omega), List.getD_eq_getElem _ _ (by simp; omega)]
  simp

/-- An instance of `stored_slot_shape_in_bounds`: the first candidate of
`generator 1-2 2-3` on the initial channel. -/
theorem stored_slot_shape_in_bounds_example :
    ∃ ch1 data k,
      writeSolution initChannel (generatorIterations (fun _ => 0) (0 + 1) pathGenerator).arcSet
        (generatorIterations (fun _ => 0) (0 + 1) pathGenerator).sizeArcSet
          = Outcome.returned ch1 ∧
      data = (generatorIterations (fun _ => 0) (0 + 1) pathGenerator).arcSet ∧
      k = (generatorIterations (fun _ => 0) (0 + 1) pathGenerator).sizeArcSet ∧
      k ≤ MAX_SOL_LEN / 2 ∧
      slotAt ch1 initChannel.shared_space.write_pos = (data, k) ∧
      data.length = MAX_SOL_LEN ∧
      (∀ i, i < 2 * k → 0 ≤ data.getD i 0) ∧
      (∀ t, t < k →
        HasEdge pathGenerator.edgeList (data.getD (2 * t) 0) (data.getD (2 * t + 1) 0)) ∧
      (∀ i, 2 * k ≤ i → i < MAX_SOL_LEN → data.getD i 0 = -1) :=
  stored_slot_shape_in_bounds pathArgv pathGenerator (fun _ => 0) 0 initChannel rfl (by decide)
    initChannel_WF rfl (by decide) (by decide)

theorem foldl_insertNode (occ : List Int) :
    ∀ filled : List Int,
      occ.foldl insertNode filled
        = filled ++ (firstOccurrences occ).filter (fun y => decide (y ∉ filled)) := by
  induction occ with
  | nil =>
    intro filled
    simp [firstOccurrences]
  | cons x xs ih =>
    intro filled
    rw [List.foldl_cons, ih, firstOccurrences]
    by_cases hx : x ∈ filled
    · simp only [insertNode, hx, if_true, List.filter_cons, decide_not, decide_True,
        Bool.not_true, Bool.false_eq_true, if_false, List.filter_filter]
      congr 1
      apply List.filter_congr
      intro y _
      by_cases hy : y ∈ filled
      · simp [hy]
      · have : y ≠ x := fun h => hy (h ▸ hx)
        simp [hy, this]
    · simp only [insertNode, hx, if_false, List.filter_cons, decide_not, decide_False,
        Bool.not_false, if_true, List.filter_filter, List.append_assoc, List.singleton_append]
      congr 2
      apply List.filter_congr
      intro y _
      by_cases hy : y ∈ filled
      · simp [hy]
      · by_cases hyx : y = x
        · simp [hyx]
        · simp [hy, hyx]

theorem collectNodes_eq_foldl (pairs : List (Nat × Nat)) :
    ∀ filled : List Int,
      collectNodes filled pairs = (nodeOccurrences pairs).foldl insertNode filled := by
  induction pairs with
  | nil =>
    intro filled
    rfl
  | cons p ps ih =>
    intro filled
    rw [collectNodes, ih]
    simp [nodeOccurrences]

theorem collectNodes_eq_firstOccurrences (pairs : List (Nat × Nat)) :
    collectNodes [] pairs = firstOccurrences (nodeOccurrences pairs) := by
  rw [collectNodes_eq_foldl, foldl_insertNode]
  simp

theorem firstOccurrences_mem (l : List Int) : ∀ x, x ∈ firstOccurrences l ↔ x ∈ l := by
  induction l with
  | nil =>
    intro x
    simp [firstOccurrences]
  | cons y ys ih =>
    intro x
    simp only [firstOccurrences, List.mem_cons, List.mem_filter, ih, decide_eq_true_eq]
    by_cases h : x = y
    · simp [h]
    · simp [h]

theorem firstOccurrences_nodup (l : List Int) : (firstOccurrences l).Nodup := by
  induction l with
  | nil => simp [firstOccurrences]
  | cons y ys ih =>
    simp only [firstOccurrences, List.nodup_cons, List.mem_filter, decide_eq_true_eq,
      ne_eq, not_true_eq_false, and_false, not_false_eq_true, true_and]
    exact ih.filter _

/-- Claim C16: for every non-empty list of edge arguments `a-b` whose nodes fit
in an `int`, `getArgs` returns (no index read or written by `addToSet` or
`adjustSetSize` falls outside the allocated array, which the model would report
as a stop), and `nodeSet` holds each node id of the edges once, in order of
first occurrence with `fromNode` before `toNode`; its length is the number of
distinct ids and it contains no -1. -/
theorem getArgs_nodeSet (progName : List Char) (pairs : List (Nat × Nat))
    (hne : pairs ≠ []) (hfit : ∀ p ∈ pairs, p.1 ≤ INT_MAX ∧ p.2 ≤ INT_MAX) :
    ∃ g, getArgs (progName :: pairs.map pairArg) = Except.ok g ∧
      g.nodeSet = firstOccurrences (nodeOccurrences pairs) ∧
      g.nodeSet.Nodup ∧
      (∀ x, x ∈ g.nodeSet ↔ x ∈ nodeOccurrences pairs) ∧
      g.nodeSet.length = (nodeOccurrences pairs).toFinset.card ∧
      (-1 : Int) ∉ g.nodeSet := by
  refine ⟨_, getArgs_pairs progName pairs hne hfit, ?_⟩
  simp only
  rw [collectNodes_eq_firstOccurrences]
  have hmem := firstOccurrences_mem (nodeOccurrences pairs)
  have hnd := firstOccurrences_nodup (nodeOccurrences pairs)
  refine ⟨rfl, hnd, hmem, ?_, ?_⟩
  · rw [← List.toFinset_card_of_nodup hnd]
    congr 1
    ext x
    simp only [List.mem_toFinset]
    exact hmem x
  · intro h
    rw [hmem] at h
    simp only [nodeOccurrences, List.mem_flatMap, List.mem_cons, List.mem_singleton,
      List.not_mem_nil, or_false] at h
    obtain ⟨p, -, hp⟩ := h
    omega

/-- Witness for `getArgs_nodeSet`: eleven edges on 22 distinct nodes, more than
the 20 entries first allocated. -/
theorem getArgs_nodeSet_witness :
    ∃ g, getArgs (['g'] :: manyNodesPairs.map pairArg) = Except.ok g ∧
      g.nodeSet = firstOccurrences (nodeOccurrences manyNodesPairs) ∧
      g.nodeSet.Nodup ∧
      (∀ x, x ∈ g.nodeSet ↔ x ∈ nodeOccurrences manyNodesPairs) ∧
      g.nodeSet.length = (nodeOccurrences manyNodesPairs).toFinset.card ∧
      (-1 : Int) ∉ g.nodeSet :=
  getArgs_nodeSet ['g'] manyNodesPairs (by decide) (by decide)

theorem manyNodes_count :
    (firstOccurrences (nodeOccurrences manyNodesPairs)).length = 22 := by decide

/-! ## The supervisor's startup and cleanup -/

/-- Claim C11 fails when `sem_close(freeSpace_sem)` fails: the three
`sem_close` calls are joined by `||`, so after a failing first call the other two
are not made.  A supervisor started while a stale `SEM_FREE_SPACE` name exists
reaches `cleanup` through `bailOut` in exactly this state; its release calls are
`munmap`, `close`, `shm_unlink`, `sem_close(freeSpace_sem)` and the three
`sem_unlink`, and the semaphores behind `usedSpace_sem` and `mutex_sem` are never
closed. -/
theorem cleanup_skips_sem_close :
    supervisorStartup 1 startupOk staleFreeNames = ((cleanup freeFailedOs).1, some 1) ∧
    (cleanup freeFailedOs).2
      = [ReleaseStep.munmap, ReleaseStep.close, ReleaseStep.shm_unlink,
          ReleaseStep.sem_close_free, ReleaseStep.sem_unlink_mutex,
          ReleaseStep.sem_unlink_free, ReleaseStep.sem_unlink_used] ∧
    ReleaseStep.sem_close_used ∉ (cleanup freeFailedOs).2 ∧
    ReleaseStep.sem_close_mutex ∉ (cleanup freeFailedOs).2 ∧
    (cleanup freeFailedOs).1.usedOpen = true ∧
    (cleanup freeFailedOs).1.mutexOpen = true := by
  decide

/-- Claim C20 fails while another supervisor is running (all four names
registered): a supervisor started with an argument, and equally one started
without argument whose `shm_open` finds `SHM_NAME` registered, leaves through
`bailOut`, whose `cleanup` calls `shm_unlink` and `sem_unlink` without regard to
what this process created; afterwards none of the four names exists. -/
theorem failed_startup_unlinks_names :
    supervisorStartup 2 startupOk runningNames = (emptyOs, some 1) ∧
    supervisorStartup 1 startupOk runningNames = (emptyOs, some 1) ∧
    runningNames.shmName = true ∧ runningNames.mutexName = true ∧
    runningNames.freeName = true ∧ runningNames.usedName = true ∧
    emptyOs.shmName = false ∧ emptyOs.mutexName = false ∧
    emptyOs.freeName = false ∧ emptyOs.usedName = false := by
  decide

/-! ## Several workers -/

/-- A worker running alone through the statements of `writeSolution` ends as
the function `writeSolution` does. -/
theorem aloneOutcome_eq_writeSolution (ch : Channel) (arcSet : List Int) (sizeArcSet : Nat) :
    aloneOutcome ch arcSet sizeArcSet = writeSolution ch arcSet sizeArcSet := by
  by_cases hq : ch.shared_space.quit = RUN
  · by_cases hk : sizeArcSet > MAX_SOL_LEN / 2
    · simp [aloneOutcome, runAlone, workerStep, enterWrite, writeSolution, hq, hk]
    · by_cases hm : ch.mutex_sem = 0
      · simp [aloneOutcome, runAlone, workerStep, enterWrite, writeSolution, hq, hk, hm]
      · by_cases hf : ch.freeSpace_sem = 0
        · simp [aloneOutcome, runAlone, workerStep, enterWrite, writeSolution, hq, hk, hm, hf]
        · simp [aloneOutcome, runAlone, workerStep, enterWrite, writeSolution, hq, hk, hm, hf]
  · simp [aloneOutcome, runAlone, workerStep, enterWrite, writeSolution, hq]

/-- Claim C13 fails with two workers: `write_pos` is advanced after
`sem_post(mutex_sem)`.  When worker 0 has released the mutex and not yet advanced
the cursor, worker 1 takes the mutex, reads the same `write_pos` and writes slot
0 again.  Both publishes are counted by `usedSpace_sem` and target slot 0; the
candidate of worker 0 is overwritten before it is read, and the supervisor's
second read looks at slot 1, which nobody has written. -/
theorem two_workers_share_a_slot :
    ∃ s, runSchedule twoWorkers raceSchedule = some s ∧
      s.publishes = [(0, 0), (1, 0)] ∧
      s.ch.usedSpace_sem = 2 ∧
      s.ch.shared_space.write_pos = 1 ∧
      slotAt s.ch 0 = (padCandidate [1, 2, 2, 3], 2) ∧
      ∃ s2, runSchedule s [Action.read, Action.read] = some s2 ∧
        s2.reads = [(padCandidate [1, 2, 2, 3], 2), (List.replicate MAX_SOL_LEN (-1), INT_MAX)] := by
  have h1 : (runSchedule twoWorkers raceSchedule).isSome = true := by
    set_option maxRecDepth 100000 in decide
  refine ⟨(runSchedule twoWorkers raceSchedule).get h1, (Option.some_get h1).symm, ?_⟩
  have h3 : (runSchedule twoWorkers raceSchedule).map
      (fun s => (s.publishes, s.ch.usedSpace_sem, s.ch.shared_space.write_pos, slotAt s.ch 0))
      = some ([(0, 0), (1, 0)], 2, 1, (padCandidate [1, 2, 2, 3], 2)) := by
    set_option maxRecDepth 100000 in decide
  have h4 : ((runSchedule twoWorkers raceSchedule).bind
      (fun s => runSchedule s [Action.read, Action.read])).map (fun s2 => s2.reads)
      = some [(padCandidate [1, 2, 2, 3], 2), (List.replicate MAX_SOL_LEN (-1), INT_MAX)] := by
    set_option maxRecDepth 100000 in decide
  rw [← Option.some_get h1] at h3 h4
  simp only [Option.map_some', Option.some.injEq, Prod.mk.injEq, Option.some_bind] at h3 h4
  obtain ⟨p1, p2, p3, p4⟩ := h3
  refine ⟨p1, p2, p3, p4, ?_⟩
  obtain ⟨s2, hs2, hreads⟩ := Option.map_eq_some'.mp h4
  exact ⟨s2, hs2, hreads⟩
end Arcset
